import Mathlib

/-!
Verification of the encrypted storage engine (`encrypted-storage.js`,
class `EncryptedStorage`).

The JavaScript class is shallowly embedded:
JS strings are lists of UTF-16 code-unit values (`JsStr`), byte arrays are
lists of naturals below 256, stateful operations are explicit state-passing
functions over `St`, and exceptions are `Except Err`.  Platform primitives
that do not belong to the repository (Web Crypto AES-GCM, PBKDF2, the RNG
behind `crypto.getRandomValues` and `Math.random`, `TextEncoder`) are
modelled by concrete executable functions satisfying the interface the
engine relies on: AES-GCM is modelled as an idealized authenticated cipher
(xor keystream plus a checksum tag that rejects any single-byte
modification), PBKDF2 as a deterministic digest of password, salt,
iteration count and key length, and the random source as a linear
congruential generator threaded through the state.  `btoa`/`atob` are
modelled by a real base64 codec.  Everything else is translated directly
from the source file.
-/

namespace EncStore

/-- A JavaScript string: list of UTF-16 code-unit values. -/
abbrev JsStr := List Nat

/-- Embed an ASCII Lean string literal as a `JsStr`. -/
def js (s : String) : JsStr := s.data.map Char.toNat

/-- Association-list lookup modelling keyed storage reads
(`localStorage.getItem`, IndexedDB `get`, property access). -/
def lookupA : List (JsStr × JsStr) → JsStr → Option JsStr
  | [], _ => none
  | p :: t, k => if p.1 = k then some p.2 else lookupA t k

/-- Association-list removal modelling `localStorage.removeItem`. -/
def removeA : List (JsStr × JsStr) → JsStr → List (JsStr × JsStr)
  | [], _ => []
  | p :: t, k => if p.1 = k then removeA t k else p :: removeA t k

/-- Association-list overwrite modelling keyed storage writes
(`localStorage.setItem`, IndexedDB `put`, property assignment). -/
def insertA (m : List (JsStr × JsStr)) (k v : JsStr) : List (JsStr × JsStr) :=
  (k, v) :: removeA m k

theorem lookupA_insertA_self (m : List (JsStr × JsStr)) (k v : JsStr) :
    lookupA (insertA m k v) k = some v := by
  simp [lookupA, insertA]

theorem lookupA_removeA_ne (m : List (JsStr × JsStr)) (k k' : JsStr)
    (h : k' ≠ k) : lookupA (removeA m k) k' = lookupA m k' := by
  induction m with
  | nil => rfl
  | cons p t ih =>
    by_cases hp : p.1 = k
    · have hkk' : ¬ k = k' := fun h' => h h'.symm
      simp [removeA, lookupA, hp, hkk', ih]
    · simp only [removeA, hp, if_false, lookupA]
      by_cases hk' : p.1 = k'
      · simp [hk']
      · simp [hk', ih]

theorem lookupA_insertA_ne (m : List (JsStr × JsStr)) (k k' v : JsStr)
    (h : k' ≠ k) : lookupA (insertA m k v) k' = lookupA m k' := by
  have : k ≠ k' := fun h' => h h'.symm
  simp [insertA, lookupA, this, lookupA_removeA_ne m k k' h]

theorem lookupA_removeA_self (m : List (JsStr × JsStr)) (k : JsStr) :
    lookupA (removeA m k) k = none := by
  induction m with
  | nil => rfl
  | cons p t ih =>
    by_cases hp : p.1 = k
    · simp [removeA, hp, ih]
    · simp [removeA, lookupA, hp, ih]

/-! Base64 codec: model of the platform `btoa`/`atob` used by
`arrayBufferToBase64`, `base64ToArrayBuffer`, `bytesToBase64` and
`base64ToBytes` in the source. -/

/-- Map a 6-bit value to its base64 alphabet character code. -/
def sextetToChar (n : Nat) : Nat :=
  if n < 26 then 65 + n
  else if n < 52 then 71 + n
  else if n < 62 then n - 4
  else if n = 62 then 43
  else 47

/-- Map a character code back to its 6-bit value, if it is in the
base64 alphabet. -/
def charToSextet (c : Nat) : Option Nat :=
  if 65 ≤ c ∧ c ≤ 90 then some (c - 65)
  else if 97 ≤ c ∧ c ≤ 122 then some (c - 71)
  else if 48 ≤ c ∧ c ≤ 57 then some (c + 4)
  else if c = 43 then some 62
  else if c = 47 then some 63
  else none

theorem charToSextet_sextetToChar :
    ∀ n, n < 64 → charToSextet (sextetToChar n) = some n := by decide

theorem sextetToChar_ne_61 (n : Nat) : sextetToChar n ≠ 61 := by
  unfold sextetToChar
  split
  · omega
  · split
    · omega
    · split
      · omega
      · split <;> omega

/-- Base64 encoding of a byte list (model of `btoa` on a binary string). -/
def b64encode : List Nat → List Nat
  | [] => []
  | [a] => [sextetToChar (a / 4), sextetToChar (a % 4 * 16), 61, 61]
  | [a, b] => [sextetToChar (a / 4), sextetToChar (a % 4 * 16 + b / 16),
               sextetToChar (b % 16 * 4), 61]
  | a :: b :: c :: rest =>
      sextetToChar (a / 4) :: sextetToChar (a % 4 * 16 + b / 16) ::
      sextetToChar (b % 16 * 4 + c / 64) :: sextetToChar (c % 64) ::
      b64encode rest

/-- Base64 decoding (model of `atob`); `none` models the
`InvalidCharacterError` thrown on malformed input. -/
def b64decode : List Nat → Option (List Nat)
  | [] => some []
  | c1 :: c2 :: c3 :: c4 :: rest =>
      match charToSextet c1, charToSextet c2 with
      | some s1, some s2 =>
        if c3 = 61 then
          if c4 = 61 ∧ rest = [] then some [s1 * 4 + s2 / 16] else none
        else
          match charToSextet c3 with
          | some s3 =>
            if c4 = 61 then
              if rest = [] then some [s1 * 4 + s2 / 16, s2 % 16 * 16 + s3 / 4]
              else none
            else
              match charToSextet c4, b64decode rest with
              | some s4, some bs =>
                  some ((s1 * 4 + s2 / 16) :: (s2 % 16 * 16 + s3 / 4) ::
                        (s3 % 4 * 64 + s4) :: bs)
              | _, _ => none
          | none => none
      | _, _ => none
  | _ => none

theorem b64decode_b64encode :
    ∀ l : List Nat, (∀ b ∈ l, b < 256) → b64decode (b64encode l) = some l
  | [], _ => rfl
  | [a], h => by
      have ha : a < 256 := h a (by simp)
      have h1 := charToSextet_sextetToChar (a / 4) (by omega)
      have h2 := charToSextet_sextetToChar (a % 4 * 16) (by omega)
      simp only [b64encode, b64decode, h1, h2, if_true, and_self, if_pos rfl]
      simp only [if_true, Option.some.injEq, List.cons.injEq, and_true]
      omega
  | [a, b], h => by
      have ha : a < 256 := h a (by simp)
      have hb : b < 256 := h b (by simp)
      have h1 := charToSextet_sextetToChar (a / 4) (by omega)
      have h2 := charToSextet_sextetToChar (a % 4 * 16 + b / 16) (by omega)
      have h3 := charToSextet_sextetToChar (b % 16 * 4) (by omega)
      simp only [b64encode, b64decode, h1, h2, h3,
        sextetToChar_ne_61 (b % 16 * 4), if_false, if_pos rfl]
      simp only [if_true, Option.some.injEq, List.cons.injEq, and_true]
      omega
  | a :: b :: c :: rest, h => by
      have ha : a < 256 := h a (by simp)
      have hb : b < 256 := h b (by simp)
      have hc : c < 256 := h c (by simp)
      have ih := b64decode_b64encode rest (fun x hx => h x (by simp [hx]))
      have h1 := charToSextet_sextetToChar (a / 4) (by omega)
      have h2 := charToSextet_sextetToChar (a % 4 * 16 + b / 16) (by omega)
      have h3 := charToSextet_sextetToChar (b % 16 * 4 + c / 64) (by omega)
      have h4 := charToSextet_sextetToChar (c % 64) (by omega)
      simp only [b64encode, b64decode, h1, h2, h3, h4,
        sextetToChar_ne_61 (b % 16 * 4 + c / 64), if_false,
        sextetToChar_ne_61 (c % 64), ih]
      simp only [if_true, Option.some.injEq, List.cons.injEq, and_true]
      omega

/-! Text codec: model of the platform `TextEncoder`/`TextDecoder` pair used
by the Web Crypto path.  It is modelled as an injective byte codec (two
bytes per UTF-16 code unit); the engine only relies on the codec being a
lossless round trip for well-formed strings. -/

/-- Model of `new TextEncoder().encode`. -/
def textEncode : JsStr → List Nat
  | [] => []
  | u :: rest => u % 256 :: u / 256 % 256 :: textEncode rest

/-- Model of `new TextDecoder().decode`. -/
def textDecode : List Nat → JsStr
  | [] => []
  | [a] => [a]
  | a :: b :: rest => (a % 256 + 256 * (b % 256)) :: textDecode rest

theorem textDecode_textEncode :
    ∀ s : JsStr, (∀ u ∈ s, u < 65536) → textDecode (textEncode s) = s
  | [], _ => rfl
  | u :: rest, h => by
      have hu : u < 65536 := h u (by simp)
      have ih := textDecode_textEncode rest (fun x hx => h x (by simp [hx]))
      simp only [textEncode, textDecode, ih]
      congr 1
      omega

theorem textEncode_lt_256 :
    ∀ s : JsStr, ∀ b ∈ textEncode s, b < 256
  | u :: rest, b, hb => by
      simp only [textEncode, List.mem_cons] at hb
      rcases hb with h | h | h
      · omega
      · omega
      · exact textEncode_lt_256 rest b h

/-! JSON model: the source uses `JSON.stringify` / `JSON.parse` on the key
slot and on non-string data.  Values are modelled by `Json`; numbers are
restricted to integers (the engine only ever serializes integer arrays and
the claims only involve integer numbers; fractional literals are outside
the model, so `jsonParse` rejects them like any other unmodelled input). -/

/-- A JavaScript data value as seen by `JSON.stringify`/`JSON.parse`.
`str` is the `typeof data === 'string'` case of the source. -/
inductive Json where
  | null : Json
  | bool (b : Bool) : Json
  | num (n : Int) : Json
  | str (s : JsStr) : Json
  | arr (elems : List Json) : Json
  | obj (fields : List (JsStr × Json)) : Json

/-- Decimal digit characters of a positive natural, most significant
first; the first argument is recursion fuel. -/
def natToDigitsAux : Nat → Nat → List Nat
  | 0, _ => []
  | fuel + 1, n =>
      if n = 0 then [] else natToDigitsAux fuel (n / 10) ++ [48 + n % 10]

/-- Decimal digit characters of a natural number. -/
def natToDigits (n : Nat) : List Nat :=
  if n = 0 then [48] else natToDigitsAux n n

/-- Decimal representation of an integer. -/
def intToDigits : Int → List Nat
  | .ofNat n => natToDigits n
  | .negSucc n => 45 :: natToDigits (n + 1)

/-- Lower-case hex digit character. -/
def hexDigit (n : Nat) : Nat := if n < 10 then 48 + n else 87 + n

/-- JSON escaping of one string character (quote, backslash, control). -/
def escapeChar (c : Nat) : List Nat :=
  if c = 34 then [92, 34]
  else if c = 92 then [92, 92]
  else if c < 32 then [92, 117, 48, 48, hexDigit (c / 16), hexDigit (c % 16)]
  else [c]

/-- JSON escaping of a whole string body. -/
def escapeStr : JsStr → List Nat
  | [] => []
  | c :: rest => escapeChar c ++ escapeStr rest

/-- A JSON string literal: quote, escaped body, quote. -/
def quoteStr (s : JsStr) : List Nat := 34 :: (escapeStr s ++ [34])

mutual

/-- Model of `JSON.stringify` (emits no whitespace, like the source's
calls with no spacing argument). -/
def jsonStringify : Json → List Nat
  | .null => js "null"
  | .bool true => js "true"
  | .bool false => js "false"
  | .num n => intToDigits n
  | .str s => quoteStr s
  | .arr xs => 91 :: (stringifyElems xs ++ [93])
  | .obj fs => 123 :: (stringifyFields fs ++ [125])

/-- Comma-separated stringification of array elements. -/
def stringifyElems : List Json → List Nat
  | [] => []
  | [x] => jsonStringify x
  | x :: rest => jsonStringify x ++ 44 :: stringifyElems rest

/-- Comma-separated stringification of object fields. -/
def stringifyFields : List (JsStr × Json) → List Nat
  | [] => []
  | [(k, v)] => quoteStr k ++ 58 :: jsonStringify v
  | (k, v) :: rest =>
      quoteStr k ++ 58 :: jsonStringify v ++ 44 :: stringifyFields rest

end

/-- Whitespace recognised by `JSON.parse`. -/
def isWs (c : Nat) : Bool := c = 32 || c = 9 || c = 10 || c = 13

/-- Skip leading JSON whitespace. -/
def skipWs (s : List Nat) : List Nat := s.dropWhile isWs

/-- Decimal digit test. -/
def isDigit (c : Nat) : Bool := 48 ≤ c && c ≤ 57

/-- Parse a maximal run of decimal digits into its value. -/
def parseDigits (s : List Nat) : Option (Nat × List Nat) :=
  let ds := s.takeWhile isDigit
  if ds.isEmpty then none
  else some (ds.foldl (fun a c => a * 10 + (c - 48)) 0, s.dropWhile isDigit)

/-- A number literal must not continue with a fraction or exponent
(fractional numbers are outside this model). -/
def numEndOk : List Nat → Bool
  | [] => true
  | c :: _ => ¬ (c = 46 || c = 101 || c = 69)

/-- Hex digit value for string escapes. -/
def hexVal (c : Nat) : Option Nat :=
  if 48 ≤ c ∧ c ≤ 57 then some (c - 48)
  else if 97 ≤ c ∧ c ≤ 102 then some (c - 87)
  else if 65 ≤ c ∧ c ≤ 70 then some (c - 55)
  else none

/-- Parse the body of a JSON string literal after the opening quote. -/
def parseStringBody : List Nat → Option (JsStr × List Nat)
  | [] => none
  | 34 :: rest => some ([], rest)
  | 92 :: 117 :: h1 :: h2 :: h3 :: h4 :: rest => do
      let v1 ← hexVal h1
      let v2 ← hexVal h2
      let v3 ← hexVal h3
      let v4 ← hexVal h4
      let (s, r) ← parseStringBody rest
      some ((v1 * 4096 + v2 * 256 + v3 * 16 + v4) :: s, r)
  | 92 :: e :: rest => do
      let c ← if e = 34 then some 34 else if e = 92 then some 92
              else if e = 47 then some 47 else if e = 98 then some 8
              else if e = 102 then some 12 else if e = 110 then some 10
              else if e = 114 then some 13 else if e = 116 then some 9
              else none
      let (s, r) ← parseStringBody rest
      some (c :: s, r)
  | c :: rest =>
      if c < 32 then none
      else do
        let (s, r) ← parseStringBody rest
        some (c :: s, r)

/-- Check and consume an expected literal tail (after its first
character has been matched). -/
def expectLit (lit : List Nat) (s : List Nat) (v : Json) :
    Option (Json × List Nat) :=
  if s.take lit.length = lit then some (v, s.drop lit.length) else none

mutual

/-- Model of the value parser of `JSON.parse`; the first argument is
recursion fuel. -/
def parseVal : Nat → List Nat → Option (Json × List Nat)
  | 0, _ => none
  | fuel + 1, s =>
    match skipWs s with
    | [] => none
    | c :: r =>
      if c = 110 then expectLit (js "ull") r .null
      else if c = 116 then expectLit (js "rue") r (.bool true)
      else if c = 102 then expectLit (js "alse") r (.bool false)
      else if c = 34 then
        match parseStringBody r with
        | some (cs, r2) => some (.str cs, r2)
        | none => none
      else if c = 91 then
        let r2 := skipWs r
        if r2.head? = some 93 then some (.arr [], r2.tail)
        else
          match parseElems fuel r2 with
          | some (vs, r3) => some (.arr vs, r3)
          | none => none
      else if c = 123 then
        let r2 := skipWs r
        if r2.head? = some 125 then some (.obj [], r2.tail)
        else
          match parseFields fuel r2 with
          | some (fs, r3) => some (.obj fs, r3)
          | none => none
      else if c = 45 then
        match parseDigits r with
        | some (n, r2) =>
            if numEndOk r2 then some (.num (-(n : Int)), r2) else none
        | none => none
      else if isDigit c then
        match parseDigits (c :: r) with
        | some (n, r2) =>
            if numEndOk r2 then some (.num (n : Int), r2) else none
        | none => none
      else none

/-- Parse one or more comma-separated array elements up to `]`. -/
def parseElems : Nat → List Nat → Option (List Json × List Nat)
  | 0, _ => none
  | fuel + 1, s =>
    match parseVal fuel s with
    | none => none
    | some (v, r) =>
      let r2 := skipWs r
      if r2.head? = some 44 then
        match parseElems fuel r2.tail with
        | some (vs, r3) => some (v :: vs, r3)
        | none => none
      else if r2.head? = some 93 then some ([v], r2.tail)
      else none

/-- Parse one or more comma-separated object fields up to the closing
brace. -/
def parseFields : Nat → List Nat → Option (List (JsStr × Json) × List Nat)
  | 0, _ => none
  | fuel + 1, s =>
    let s2 := skipWs s
    if s2.head? = some 34 then
      match parseStringBody s2.tail with
      | none => none
      | some (k, r) =>
        if (skipWs r).head? = some 58 then
          match parseVal fuel (skipWs r).tail with
          | none => none
          | some (v, r2) =>
            let r3 := skipWs r2
            if r3.head? = some 44 then
              match parseFields fuel r3.tail with
              | some (fs, r4) => some ((k, v) :: fs, r4)
              | none => none
            else if r3.head? = some 125 then some ([(k, v)], r3.tail)
            else none
        else none
    else none

end

/-- Model of `JSON.parse`: parse a complete value with only trailing
whitespace allowed; `none` models the thrown `SyntaxError`. -/
def jsonParse (s : JsStr) : Option Json :=
  match parseVal (s.length + 1) s with
  | some (v, r) => if skipWs r = [] then some v else none
  | none => none

/-! Correctness of the JSON round trip on integer arrays, the shape the
engine persists in the key slot. -/

/-- The `Json` value of a raw key byte array, as `storeKey` serializes it. -/
def natsToJson (l : List Nat) : Json :=
  .arr (l.map fun b => Json.num (Int.ofNat b))

/-- Read a parsed key slot back as an array of naturals (a key slot whose
JSON is not an array of nonnegative integers behaves as corrupt key
material, modelled as absent). -/
def natsOf : List Json → Option (List Nat)
  | [] => some []
  | .num (.ofNat n) :: t =>
      match natsOf t with
      | some l => some (n :: l)
      | none => none
  | _ => none

/-- Interpret a `Json` value as a raw key byte array. -/
def asNatArray : Json → Option (List Nat)
  | .arr xs => natsOf xs
  | _ => none

theorem natsOf_map (l : List Nat) :
    natsOf (l.map fun b => Json.num (Int.ofNat b)) = some l := by
  induction l with
  | nil => rfl
  | cons b t ih =>
      simp only [List.map_cons, natsOf]
      rw [ih]

theorem natToDigitsAux_isDigit :
    ∀ fuel n, ∀ c ∈ natToDigitsAux fuel n, isDigit c = true
  | 0, n => by simp [natToDigitsAux]
  | fuel + 1, n => by
      intro c hc
      simp only [natToDigitsAux] at hc
      by_cases h0 : n = 0
      · simp [h0] at hc
      · simp only [h0, if_false, List.mem_append, List.mem_singleton] at hc
        rcases hc with h | h
        · exact natToDigitsAux_isDigit fuel (n / 10) c h
        · subst h; simp only [isDigit]; simp; omega

theorem natToDigits_isDigit (n : Nat) :
    ∀ c ∈ natToDigits n, isDigit c = true := by
  intro c hc
  unfold natToDigits at hc
  by_cases h0 : n = 0
  · simp [h0] at hc; subst hc; rfl
  · simp only [h0, if_false] at hc
    exact natToDigitsAux_isDigit n n c hc

theorem natToDigits_ne_nil (n : Nat) : natToDigits n ≠ [] := by
  unfold natToDigits
  by_cases h0 : n = 0
  · simp [h0]
  · simp only [h0, if_false]
    obtain ⟨m, rfl⟩ : ∃ m, n = m + 1 := ⟨n - 1, by omega⟩
    simp [natToDigitsAux, h0]

theorem natToDigits_head (n : Nat) :
    ∃ d t, natToDigits n = d :: t ∧ isDigit d = true := by
  match h : natToDigits n with
  | [] => exact absurd h (natToDigits_ne_nil n)
  | d :: t =>
      exact ⟨d, t, rfl, natToDigits_isDigit n d (by rw [h]; simp)⟩

/-- Head-failure condition for character-class scanners. -/
def headFails (p : Nat → Bool) (ys : List Nat) : Prop :=
  match ys.head? with
  | some c => p c = false
  | none => True

theorem takeWhile_append_all {p : Nat → Bool} :
    ∀ (xs ys : List Nat), (∀ a ∈ xs, p a = true) → headFails p ys →
      (xs ++ ys).takeWhile p = xs ∧ (xs ++ ys).dropWhile p = ys
  | [], ys, _, hy => by
      cases ys with
      | nil => simp
      | cons c t =>
          simp only [headFails, List.head?] at hy
          simp [List.takeWhile_cons, List.dropWhile_cons, hy]
  | x :: xs, ys, hx, hy => by
      have hpx : p x = true := hx x (by simp)
      have ih := takeWhile_append_all xs ys (fun a ha => hx a (by simp [ha])) hy
      simp [List.takeWhile_cons, List.dropWhile_cons, hpx, ih.1, ih.2]

theorem foldl_digits_val :
    ∀ fuel n a, n ≤ fuel →
      (natToDigitsAux fuel n).foldl (fun acc c => acc * 10 + (c - 48)) a
        = a * 10 ^ (natToDigitsAux fuel n).length + n
  | 0, n, a, h => by
      have : n = 0 := by omega
      simp [natToDigitsAux, this]
  | fuel + 1, n, a, h => by
      by_cases h0 : n = 0
      · simp [natToDigitsAux, h0]
      · have ih := foldl_digits_val fuel (n / 10) a (by omega)
        simp only [natToDigitsAux, h0, if_false, List.foldl_append, ih,
          List.length_append, List.foldl_cons, List.foldl_nil,
          List.length_cons, List.length_nil]
        have e1 : 48 + n % 10 - 48 = n % 10 := by omega
        rw [e1, pow_succ]
        have e2 : (a * 10 ^ (natToDigitsAux fuel (n / 10)).length + n / 10)
            * 10 + n % 10
            = a * (10 ^ (natToDigitsAux fuel (n / 10)).length * 10)
              + (n / 10 * 10 + n % 10) := by ring
        rw [e2]
        congr 1
        omega

theorem parseDigits_natToDigits (n : Nat) (rest : List Nat)
    (h : headFails isDigit rest) :
    parseDigits (natToDigits n ++ rest) = some (n, rest) := by
  have hall := natToDigits_isDigit n
  have htd := takeWhile_append_all (natToDigits n) rest hall h
  simp only [parseDigits, htd.1, htd.2]
  have hne := natToDigits_ne_nil n
  simp only [List.isEmpty_iff, hne, if_false]
  unfold natToDigits
  by_cases h0 : n = 0
  · simp [h0]
  · simp only [h0, if_false]
    have := foldl_digits_val n n 0 (le_refl n)
    simp only [this, zero_mul, zero_add]

theorem isWs_of_isDigit {d : Nat} (h : isDigit d = true) : isWs d = false := by
  simp only [isDigit, Bool.and_eq_true, decide_eq_true_eq] at h
  simp only [isWs]
  simp only [Bool.or_eq_false_iff, decide_eq_false_iff_not]
  omega

/-- Boundary condition after a number literal: the next character (if
any) neither extends the digit run nor begins a fraction or exponent. -/
def numBoundary (rest : List Nat) : Prop :=
  match rest.head? with
  | some c => isDigit c = false ∧ c ≠ 46 ∧ c ≠ 101 ∧ c ≠ 69
  | none => True

theorem parseVal_num (fuel n : Nat) (rest : List Nat) (hb : numBoundary rest) :
    parseVal (fuel + 1) (natToDigits n ++ rest)
      = some (.num (Int.ofNat n), rest) := by
  obtain ⟨d, t, hdt, hd⟩ := natToDigits_head n
  have hdig : 48 ≤ d ∧ d ≤ 57 := by
    simpa [isDigit] using hd
  rw [hdt, List.cons_append]
  have hws : isWs d = false := isWs_of_isDigit hd
  have h110 : ¬ d = 110 := by omega
  have h116 : ¬ d = 116 := by omega
  have h102 : ¬ d = 102 := by omega
  have h34 : ¬ d = 34 := by omega
  have h91 : ¬ d = 91 := by omega
  have h123 : ¬ d = 123 := by omega
  have h45 : ¬ d = 45 := by omega
  have hfail : headFails isDigit rest := by
    unfold numBoundary at hb
    unfold headFails
    cases rest with
    | nil => trivial
    | cons c t2 => exact hb.1
  have hnum : numEndOk rest = true := by
    unfold numBoundary at hb
    cases rest with
    | nil => rfl
    | cons c t2 =>
        simp only [numEndOk]
        simp only [Bool.or_eq_true, decide_eq_true_eq] at *
        simp [hb.2.1, hb.2.2.1, hb.2.2.2]
  have hpd : parseDigits (d :: (t ++ rest)) = some (n, rest) := by
    rw [← List.cons_append, ← hdt]
    exact parseDigits_natToDigits n rest hfail
  simp only [parseVal, skipWs, List.dropWhile_cons, hws, Bool.false_eq_true,
    if_false, if_neg h110, if_neg h116, if_neg h102, if_neg h34, if_neg h91,
    if_neg h123, if_neg h45, hd, if_true, hpd, hnum]
  rfl

theorem parseElems_nats :
    ∀ (l : List Nat) (fuel : Nat), l ≠ [] → l.length < fuel → ∀ rest,
      parseElems fuel
          (stringifyElems (l.map fun b => Json.num (Int.ofNat b))
            ++ (93 :: rest))
        = some (l.map fun b => Json.num (Int.ofNat b), rest)
  | [], _, hne, _, _ => absurd rfl hne
  | [b], fuel, _, hf, rest => by
      have hf' : 1 < fuel := by simpa using hf
      obtain ⟨g, rfl⟩ : ∃ g, fuel = g + 2 := ⟨fuel - 2, by omega⟩
      simp only [List.map_cons, List.map_nil, stringifyElems, jsonStringify,
        intToDigits]
      have hv := parseVal_num g b (93 :: rest)
        ⟨by decide, by decide, by decide, by decide⟩
      show parseElems (g + 1 + 1) _ = _
      rw [parseElems, hv]
      simp [skipWs, List.dropWhile_cons, isWs, List.head?]
  | b :: b2 :: t, fuel, _, hf, rest => by
      have hf' : t.length + 2 < fuel := by simpa using hf
      obtain ⟨g, rfl⟩ : ∃ g, fuel = g + 2 := ⟨fuel - 2, by omega⟩
      have ih := parseElems_nats (b2 :: t) (g + 1) (by simp)
        (by simp at hf ⊢; omega) rest
      simp only [List.map_cons, stringifyElems, jsonStringify, intToDigits]
        at ih ⊢
      set X := stringifyElems
          (Json.num (Int.ofNat b2) :: List.map (fun x => Json.num (Int.ofNat x)) t)
          ++ 93 :: rest with hX
      have hsh : (natToDigits b ++
            44 :: stringifyElems (Json.num (Int.ofNat b2)
              :: List.map (fun x => Json.num (Int.ofNat x)) t))
            ++ (93 :: rest)
          = natToDigits b ++ (44 :: X) := by
        rw [hX]; simp
      have hv := parseVal_num g b (44 :: X)
        ⟨by decide, by decide, by decide, by decide⟩
      show parseElems (g + 1 + 1) _ = _
      rw [hsh, parseElems, hv]
      have hsk : skipWs (44 :: X) = 44 :: X := by
        rw [skipWs, List.dropWhile_cons]
        simp [show isWs 44 = false from rfl]
      simp only [hsk, List.head?, List.tail_cons]
      simp [ih]

theorem stringifyElems_nats_len (l : List Nat) :
    l.length ≤ (stringifyElems (l.map fun b => Json.num (Int.ofNat b))).length := by
  match l with
  | [] => simp [stringifyElems]
  | [b] =>
      simp only [List.map_cons, List.map_nil, stringifyElems, jsonStringify,
        intToDigits, List.length_cons, List.length_nil]
      have := natToDigits_ne_nil b
      have : 0 < (natToDigits b).length := List.length_pos.mpr this
      omega
  | b :: b2 :: t =>
      have ih := stringifyElems_nats_len (b2 :: t)
      simp only [List.map_cons, stringifyElems, jsonStringify, intToDigits,
        List.length_append, List.length_cons] at ih ⊢
      omega

theorem stringifyElems_nats_head (l : List Nat) (h : l ≠ []) :
    ∃ d tl, stringifyElems (l.map fun b => Json.num (Int.ofNat b)) = d :: tl
      ∧ isDigit d = true := by
  match l with
  | [] => exact absurd rfl h
  | [b] =>
      obtain ⟨d, t, hdt, hd⟩ := natToDigits_head b
      exact ⟨d, t, by simp [stringifyElems, jsonStringify, intToDigits, hdt], hd⟩
  | b :: b2 :: t =>
      obtain ⟨d, t', hdt, hd⟩ := natToDigits_head b
      refine ⟨d, t' ++ 44 :: stringifyElems ((b2 :: t).map fun x => Json.num (Int.ofNat x)), ?_, hd⟩
      simp [stringifyElems, jsonStringify, intToDigits, hdt]

theorem jsonParse_natsToJson (l : List Nat) :
    jsonParse (jsonStringify (natsToJson l)) = some (natsToJson l) := by
  cases l with
  | nil => rfl
  | cons b t =>
      unfold natsToJson jsonParse
      obtain ⟨d, tl, hS, hd⟩ := stringifyElems_nats_head (b :: t) (by simp)
      have hdig : 48 ≤ d ∧ d ≤ 57 := by simpa [isDigit] using hd
      have hws : isWs d = false := isWs_of_isDigit hd
      set S := stringifyElems ((b :: t).map fun x => Json.num (Int.ofNat x))
        with hSdef
      have hlen : (jsonStringify (.arr ((b :: t).map fun x => Json.num (Int.ofNat x)))).length
          = S.length + 2 := by
        simp [jsonStringify, hSdef]
      have hstr : jsonStringify (.arr ((b :: t).map fun x => Json.num (Int.ofNat x)))
          = 91 :: (S ++ [93]) := by
        simp [jsonStringify, hSdef]
      rw [hstr] at *
      have hlen2 : (91 :: (S ++ [93])).length = S.length + 2 := by simp
      rw [hlen2]
      have hpe := parseElems_nats (b :: t) (S.length + 1 + 1) (by simp)
        (by
          have := stringifyElems_nats_len (b :: t)
          simp only [← hSdef] at this
          simp only [List.length_cons] at this ⊢
          omega) []
      have hS93 : S ++ (93 : Nat) :: [] = d :: (tl ++ [93]) := by
        rw [hS]; rfl
      have hv : parseVal (S.length + 2 + 1) (91 :: (S ++ [93]))
          = some (.arr ((b :: t).map fun x => Json.num (Int.ofNat x)), []) := by
        simp only [parseVal, skipWs, List.dropWhile_cons]
        simp only [show isWs 91 = false from rfl, Bool.false_eq_true, if_false]
        simp only [show ¬ (91 : Nat) = 110 by omega, if_false,
          show ¬ (91 : Nat) = 116 by omega, show ¬ (91 : Nat) = 102 by omega,
          show ¬ (91 : Nat) = 34 by omega, if_true,
          show ((91 : Nat) = 91) = True by simp]
        rw [show S ++ [(93 : Nat)] = S ++ (93 : Nat) :: [] from rfl, hS93]
        simp only [skipWs, List.dropWhile_cons, hws, Bool.false_eq_true,
          if_false, List.head?]
        simp only [show ¬ d = 93 by omega, Option.some.injEq, if_false]
        rw [← hS93]
        simp only [hpe]
      rw [hv]
      rfl

/-- The key slot round trip: serialize a raw key byte array, parse it
back, read it as a byte array. -/
theorem keySlot_roundtrip (l : List Nat) :
    (jsonParse (jsonStringify (natsToJson l))).bind asNatArray = some l := by
  rw [jsonParse_natsToJson]
  simp only [Option.bind, natsToJson, asNatArray]
  exact natsOf_map l

/-! Platform primitive models: RNG, PBKDF2, AES-GCM. -/

/-- Errors surfaced by the engine's low-level operations. -/
inductive Err where
  | webCryptoUnavailable
  | authFailure
  | noKey
  | quota
  | idbError
  | badChar
  | badBase64
deriving DecidableEq

/-- Low-level results are either a value or a thrown error. -/
abbrev Res (α : Type) := Except Err α

/-- Linear congruential step: the model of the platform random source
(`crypto.getRandomValues` / `Math.random`). -/
def lcgNext (seed : Nat) : Nat := (seed * 1103515245 + 12345) % 2147483648

/-- Draw `n` random bytes, returning the advanced seed. -/
def randomBytes : Nat → Nat → List Nat × Nat
  | 0, seed => ([], seed)
  | n + 1, seed =>
      let s' := lcgNext seed
      let (rest, sf) := randomBytes n s'
      (s' % 256 :: rest, sf)

theorem randomBytes_length (n seed : Nat) :
    (randomBytes n seed).1.length = n := by
  induction n generalizing seed with
  | zero => rfl
  | succ m ih => simp [randomBytes, ih]

theorem randomBytes_lt_256 (n seed : Nat) :
    ∀ b ∈ (randomBytes n seed).1, b < 256 := by
  induction n generalizing seed with
  | zero => simp [randomBytes]
  | succ m ih =>
      intro b hb
      simp only [randomBytes, List.mem_cons] at hb
      rcases hb with h | h
      · omega
      · exact ih (lcgNext seed) b h

/-- Digest used by the derivation and keystream models. -/
def mix (l : List Nat) : Nat :=
  l.foldl (fun a c => (a * 131 + c + 17) % 1000000007) 7

/-- Model of PBKDF2 (`deriveKey` with SHA-256 then `exportKey`): a
deterministic function of password, salt, iteration count and key
length producing key-length bytes. -/
def pbkdf2 (password salt : List Nat) (iterations keyBits : Nat) : List Nat :=
  (List.range (keyBits / 8)).map
    (fun i => (mix password * 37 + mix salt * 41 + iterations * 43
        + i * 47 + 29) % 256)

/-- Keystream of the modelled AES-GCM transform. -/
def keystream (key iv : List Nat) (n : Nat) : List Nat :=
  (List.range n).map (fun i => (mix key * 3 + mix iv * 5 + i * 7 + 13) % 256)

/-- One-byte checksum used by the modelled authentication tag. -/
def byteSum (l : List Nat) : Nat := l.sum % 256

/-- The 16-byte authentication tag of the modelled AES-GCM: it commits to
the key, the nonce and the ciphertext, and any single-byte change to
nonce, ciphertext or tag breaks verification. -/
def tagOf (key iv ct : List Nat) : List Nat :=
  byteSum key :: byteSum iv :: byteSum ct :: List.replicate 13 0

/-- Pointwise xor of two byte lists. -/
def zipXor (a b : List Nat) : List Nat := List.zipWith (fun x y => x ^^^ y) a b

/-- Model of `crypto.subtle.encrypt` with AES-GCM: ciphertext followed by
the authentication tag. -/
def subtleEncrypt (key iv pt : List Nat) : List Nat :=
  let ct := zipXor pt (keystream key iv pt.length)
  ct ++ tagOf key iv ct

/-- Model of `crypto.subtle.decrypt` with AES-GCM: verify the tag, then
invert the keystream; verification failure is the `OperationError` that
the authenticated mode turns into an authentication failure. -/
def subtleDecrypt (key iv ctt : List Nat) : Res (List Nat) :=
  if ctt.length < 16 then .error .authFailure
  else
    let ct := ctt.take (ctt.length - 16)
    let tg := ctt.drop (ctt.length - 16)
    if tg = tagOf key iv ct then .ok (zipXor ct (keystream key iv ct.length))
    else .error .authFailure

/-! The `EncryptedStorage` class model. -/

/-- Construction-time options (`keyName`, `backend`, `keySize` with the
constructor's defaults). -/
structure Cfg where
  keyName : JsStr := js "pwa-encryption-key"
  storageBackend : JsStr := js "localStorage"
  keySize : Nat := 256

/-- The fixed `this.ivSize = 12` field. -/
def ivSize : Nat := 12

/-- Host environment: which platform capabilities the feature probes
find, the page hostname, and failure injection for storage writes that
throw after construction (quota exhaustion, IndexedDB request errors). -/
structure Env where
  webCrypto : Bool
  localStorage : Bool
  indexedDB : Bool
  textEncoder : Bool
  hostname : JsStr
  lsQuota : Bool := false
  idbFail : Bool := false

/-- The `this.features` capability record computed by the constructor. -/
structure Features where
  webCrypto : Bool
  localStorage : Bool
  indexedDB : Bool
  textEncoder : Bool

/-- Constructor feature detection (`isWebCryptoAvailable`,
`isLocalStorageAvailable`, `isIndexedDBAvailable`, `TextEncoder` check). -/
def features (e : Env) : Features :=
  ⟨e.webCrypto, e.localStorage, e.indexedDB, e.textEncoder⟩

/-- The `this.encryptionMethod` selection. -/
def encryptionMethod (e : Env) : JsStr :=
  if (features e).webCrypto then js "webcrypto" else js "simple"

/-- Mutable world state: `localStorage`, the IndexedDB `encrypted` store,
`window._encryptionKey`, `window._encryptedStorage`, and the RNG seed. -/
structure St where
  ls : List (JsStr × JsStr) := []
  idb : List (JsStr × JsStr) := []
  memKey : Option JsStr := none
  memStore : Option (List (JsStr × JsStr)) := none
  seed : Nat := 1

/-- JavaScript truthiness of an optional string argument (`undefined`,
`null` and the empty string are falsy). -/
def truthy : Option JsStr → Bool
  | none => false
  | some [] => false
  | some (_ :: _) => true

/-- The source's `arrayBufferToBase64` (a `Uint8Array` stores bytes
modulo 256). -/
def arrayBufferToBase64 (buffer : List Nat) : JsStr :=
  b64encode (buffer.map (· % 256))

/-- The source's `base64ToArrayBuffer`. -/
def base64ToArrayBuffer (base64 : JsStr) : Option (List Nat) :=
  b64decode base64

/-- The source's `bytesToBase64`: `String.fromCharCode` wraps modulo
65536 and `btoa` throws on characters above 255. -/
def bytesToBase64 (bytes : List Nat) : Option JsStr :=
  let cs := bytes.map (· % 65536)
  if cs.all (· < 256) then some (b64encode cs) else none

/-- The source's `base64ToBytes`. -/
def base64ToBytes (base64 : JsStr) : Option (List Nat) :=
  b64decode base64

/-- The source's `stringToBytes` (`charCodeAt(i) & 0xFF`). -/
def stringToBytes (str : JsStr) : List Nat := str.map (· % 256)

/-- The source's `bytesToString` (`String.fromCharCode`; inputs are
bytes, so the identity). -/
def bytesToString (bytes : List Nat) : JsStr := bytes

/-- `generateKey`: a fresh random AES key, as its exportable raw bytes. -/
def generateKey (e : Env) (cfg : Cfg) (s : St) : Res (List Nat) × St :=
  if (features e).webCrypto then
    let (bytes, seed') := randomBytes (cfg.keySize / 8) s.seed
    (.ok bytes, { s with seed := seed' })
  else (.error .webCryptoUnavailable, s)

/-- `exportKey`: the raw byte form of a key handle (handles are already
modelled as raw bytes). -/
def exportKey (e : Env) (key : List Nat) : Res (List Nat) :=
  if (features e).webCrypto then .ok key else .error .webCryptoUnavailable

/-- `importKey`: rebuild a key handle from raw bytes. -/
def importKey (e : Env) (keyData : List Nat) : Res (List Nat) :=
  if (features e).webCrypto then .ok keyData else .error .webCryptoUnavailable

/-- `encryptWithWebCrypto`: fresh random IV, UTF encoding, AES-GCM,
IV-prefixed envelope, base64. -/
def encryptWithWebCrypto (e : Env) (data : JsStr) (key : List Nat) (s : St) :
    Res JsStr × St :=
  if (features e).webCrypto then
    let (iv, seed') := randomBytes ivSize s.seed
    let dataBytes := textEncode data
    let encrypted := subtleEncrypt key iv dataBytes
    (.ok (arrayBufferToBase64 (iv ++ encrypted)), { s with seed := seed' })
  else (.error .webCryptoUnavailable, s)

/-- `decryptWithWebCrypto`: base64 decode, split the IV prefix,
authenticated decrypt, text decode. -/
def decryptWithWebCrypto (e : Env) (encryptedData : JsStr) (key : List Nat) :
    Res JsStr :=
  if (features e).webCrypto then
    match base64ToArrayBuffer encryptedData with
    | none => .error .badBase64
    | some combined =>
        let iv := combined.take ivSize
        let encrypted := combined.drop ivSize
        match subtleDecrypt key iv encrypted with
        | .ok pt => .ok (textDecode pt)
        | .error er => .error er
  else .error .webCryptoUnavailable

/-- `generateSimpleKey`: 32 bytes from `Math.random`. -/
def generateSimpleKey (s : St) : List Nat × St :=
  let (key, seed') := randomBytes 32 s.seed
  (key, { s with seed := seed' })

/-- Positional xor against a cyclically repeated key
(`bytes[i] ^ key[i % key.length]`; an access past an empty key yields a
value that xors as zero, as the coerced `undefined` does). -/
def cycleXor (key data : List Nat) : List Nat :=
  (List.range data.length).map
    (fun i => data.getD i 0 ^^^ key.getD (i % key.length) 0)

/-- `encryptSimple`: xor mask then base64. -/
def encryptSimple (data : JsStr) (key : List Nat) : Res JsStr :=
  match bytesToBase64 (cycleXor key (stringToBytes data)) with
  | some out => .ok out
  | none => .error .badChar

/-- `decryptSimple`: base64 decode then the same xor mask. -/
def decryptSimple (encryptedData : JsStr) (key : List Nat) : Res JsStr :=
  match base64ToBytes encryptedData with
  | some encrypted => .ok (bytesToString (cycleXor key encrypted))
  | none => .error .badBase64

/-- `deriveKeyFromPassword`: the PBKDF2 path with the fixed per-origin
salt, or the positional-mask fallback. -/
def deriveKeyFromPassword (e : Env) (cfg : Cfg) (password : JsStr) :
    List Nat :=
  if ¬ (features e).webCrypto then
    let passwordBytes := stringToBytes password
    (List.range 32).map
      (fun i => passwordBytes.getD (i % passwordBytes.length) 0 ^^^ i * 17)
  else
    let passwordBuffer := textEncode password
    let salt := textEncode (js "pwa-salt-" ++ e.hostname)
    pbkdf2 passwordBuffer salt 100000 cfg.keySize

/-- The simple path's in-place key/password mixing inside
`generateAndStoreKey` (`key[i] ^= passwordBytes[i % passwordBytes.length]`). -/
def xorKeyWithPassword (key : List Nat) (password : JsStr) : List Nat :=
  let passwordBytes := stringToBytes password
  (List.range key.length).map
    (fun i => key.getD i 0 ^^^ passwordBytes.getD (i % passwordBytes.length) 0)

/-- `storeKey`: JSON-encode the raw key and persist it in the key slot of
the first available backend (this chain ignores the configured record
backend, as the source does). -/
def storeKey (e : Env) (cfg : Cfg) (key : List Nat) (s : St) : Res Unit × St :=
  let keyData := jsonStringify (natsToJson key)
  if (features e).localStorage then
    if e.lsQuota then (.error .quota, s)
    else (.ok (), { s with ls := insertA s.ls cfg.keyName keyData })
  else if (features e).indexedDB then
    if e.idbFail then (.error .idbError, s)
    else (.ok (), { s with idb := insertA s.idb cfg.keyName keyData })
  else (.ok (), { s with memKey := some keyData })

/-- `loadKey`: read the key slot from the first available backend and
JSON-parse it; any failure (missing, empty, malformed, or not a byte
array) is caught and yields `none`. -/
def loadKey (e : Env) (cfg : Cfg) (s : St) : Option (List Nat) :=
  let keyData : Option JsStr :=
    if (features e).localStorage then lookupA s.ls cfg.keyName
    else if (features e).indexedDB then
      if e.idbFail then none else lookupA s.idb cfg.keyName
    else s.memKey
  match keyData with
  | none => none
  | some [] => none
  | some kd =>
      match jsonParse kd with
      | some j => asNatArray j
      | none => none

/-- `generateAndStoreKey`: generate (or derive from the password) a key
per the active method, persist it in the key slot, and return it. -/
def generateAndStoreKey (e : Env) (cfg : Cfg) (password : Option JsStr)
    (s : St) : Res (List Nat) × St :=
  if encryptionMethod e = js "webcrypto" then
    match generateKey e cfg s with
    | (.error er, s1) => (.error er, s1)
    | (.ok cryptoKey, s1) =>
        match exportKey e cryptoKey with
        | .error er => (.error er, s1)
        | .ok exported =>
            let key := if truthy password
              then deriveKeyFromPassword e cfg (password.getD [])
              else exported
            match storeKey e cfg key s1 with
            | (.ok _, s2) => (.ok key, s2)
            | (.error er, s2) => (.error er, s2)
  else
    let (key0, s1) := generateSimpleKey s
    let key := if truthy password
      then xorKeyWithPassword key0 (password.getD [])
      else key0
    match storeKey e cfg key s1 with
    | (.ok _, s2) => (.ok key, s2)
    | (.error er, s2) => (.error er, s2)

/-- The `dataString` conversion of `encrypt`
(`typeof data === 'string' ? data : JSON.stringify(data)`). -/
def dataStr : Json → JsStr
  | .str str => str
  | d => jsonStringify d

/-- The tail of `encrypt` after key acquisition: stringify non-string
data, then encrypt with the active method. -/
def encryptWithKey (e : Env) (data : Json) (key : List Nat) (s : St) :
    Res JsStr × St :=
  let dataString := dataStr data
  if encryptionMethod e = js "webcrypto" then
    match importKey e key with
    | .error er => (.error er, s)
    | .ok cryptoKey => encryptWithWebCrypto e dataString cryptoKey s
  else (encryptSimple dataString key, s)

/-- `encrypt`: load the key, regenerating it when absent or whenever a
(truthy) password is supplied, then encrypt; errors are logged and
rethrown, so they surface unchanged. -/
def encrypt (e : Env) (cfg : Cfg) (data : Json) (password : Option JsStr)
    (s : St) : Res JsStr × St :=
  match loadKey e cfg s, truthy password with
  | some key, false => encryptWithKey e data key s
  | _, _ =>
      match generateAndStoreKey e cfg password s with
      | (.error er, s1) => (.error er, s1)
      | (.ok key, s1) => encryptWithKey e data key s1

/-- `decrypt`: load the key (deriving one only when no key is stored and
a truthy password was given), fail with no-key otherwise, decrypt with
the active method, then JSON-parse with a raw-string fallback. -/
def decrypt (e : Env) (cfg : Cfg) (encryptedData : JsStr)
    (password : Option JsStr) (s : St) : Res Json × St :=
  let acquired : Res (Option (List Nat)) × St :=
    match loadKey e cfg s, truthy password with
    | none, true =>
        match generateAndStoreKey e cfg password s with
        | (.error er, s1) => (.error er, s1)
        | (.ok key, s1) => (.ok (some key), s1)
    | k0, _ => (.ok k0, s)
  match acquired with
  | (.error er, s1) => (.error er, s1)
  | (.ok none, s1) => (.error .noKey, s1)
  | (.ok (some key), s1) =>
      let dec : Res JsStr :=
        if encryptionMethod e = js "webcrypto" then
          match importKey e key with
          | .error er => .error er
          | .ok cryptoKey => decryptWithWebCrypto e encryptedData cryptoKey
        else decryptSimple encryptedData key
      match dec with
      | .error er => (.error er, s1)
      | .ok decryptedString =>
          match jsonParse decryptedString with
          | some j => (.ok j, s1)
          | none => (.ok (.str decryptedString), s1)

/-- The body of `saveEncrypted` before its catch-all: encrypt, then store
the envelope in the configured backend if available, else memory. -/
def saveEncryptedBody (e : Env) (cfg : Cfg) (key : JsStr) (data : Json)
    (password : Option JsStr) (s : St) : Res Unit × St :=
  match encrypt e cfg data password s with
  | (.error er, s1) => (.error er, s1)
  | (.ok encrypted, s1) =>
      if (features e).localStorage ∧ cfg.storageBackend = js "localStorage" then
        if e.lsQuota then (.error .quota, s1)
        else (.ok (), { s1 with ls := insertA s1.ls key encrypted })
      else if (features e).indexedDB ∧ cfg.storageBackend = js "indexedDB" then
        if e.idbFail then (.error .idbError, s1)
        else (.ok (), { s1 with idb := insertA s1.idb key encrypted })
      else (.ok (),
        { s1 with memStore := some (insertA (s1.memStore.getD []) key encrypted) })

/-- `saveEncrypted`: the catch-all wrapper returning a boolean. -/
def saveEncrypted (e : Env) (cfg : Cfg) (key : JsStr) (data : Json)
    (password : Option JsStr) (s : St) : Bool × St :=
  match saveEncryptedBody e cfg key data password s with
  | (.ok _, s1) => (true, s1)
  | (.error _, s1) => (false, s1)

/-- The record read chain of `loadEncrypted` (configured backend if
available, else memory). -/
def getRecordE (e : Env) (cfg : Cfg) (key : JsStr) (s : St) :
    Res (Option JsStr) :=
  if (features e).localStorage ∧ cfg.storageBackend = js "localStorage" then
    .ok (lookupA s.ls key)
  else if (features e).indexedDB ∧ cfg.storageBackend = js "indexedDB" then
    if e.idbFail then .error .idbError else .ok (lookupA s.idb key)
  else .ok (lookupA (s.memStore.getD []) key)

/-- The body of `loadEncrypted` before its catch-all: read the envelope
(`null` when missing or falsy), then decrypt. -/
def loadEncryptedBody (e : Env) (cfg : Cfg) (key : JsStr)
    (password : Option JsStr) (s : St) : Res (Option Json) × St :=
  match getRecordE e cfg key s with
  | .error er => (.error er, s)
  | .ok encrypted? =>
      if truthy encrypted? then
        match decrypt e cfg (encrypted?.getD []) password s with
        | (.error er, s1) => (.error er, s1)
        | (.ok d, s1) => (.ok (some d), s1)
      else (.ok none, s)

/-- `loadEncrypted`: the catch-all wrapper returning data or `null`. -/
def loadEncrypted (e : Env) (cfg : Cfg) (key : JsStr)
    (password : Option JsStr) (s : St) : Option Json × St :=
  match loadEncryptedBody e cfg key password s with
  | (.ok v, s1) => (v, s1)
  | (.error _, s1) => (none, s1)

/-- The record-key namespace prefix removed by `clearAll`. -/
def encPrefix : JsStr := js "encrypted-"

/-- `clearAll`: remove the key slot and the `encrypted-` namespace from
`localStorage`, delete the IndexedDB database, clear the in-memory
fallbacks; nothing in the model throws, so it returns `true`. -/
def clearAll (e : Env) (cfg : Cfg) (s : St) : Bool × St :=
  let keep : JsStr × JsStr → Bool := fun p => ! List.isPrefixOf encPrefix p.1
  let s1 := if (features e).localStorage then
      { s with ls := (removeA s.ls cfg.keyName).filter keep }
    else s
  let s2 := if (features e).indexedDB then { s1 with idb := [] } else s1
  let s3 := { s2 with memKey := none, memStore := none }
  (true, s3)

/-! Facts about the cipher primitives. -/

theorem keystream_length (key iv : List Nat) (n : Nat) :
    (keystream key iv n).length = n := by simp [keystream]

theorem keystream_lt_256 (key iv : List Nat) (n : Nat) :
    ∀ b ∈ keystream key iv n, b < 256 := by
  intro b hb
  simp only [keystream, List.mem_map] at hb
  obtain ⟨i, _, rfl⟩ := hb
  exact Nat.mod_lt _ (by norm_num)

theorem zipXor_length (a b : List Nat) :
    (zipXor a b).length = min a.length b.length := by simp [zipXor]

theorem zipXor_zipXor : ∀ (a b : List Nat), a.length ≤ b.length →
    zipXor (zipXor a b) b = a
  | [], _, _ => by simp [zipXor]
  | x :: a, [], h => by simp at h
  | x :: a, y :: b, h => by
      simp only [zipXor, List.zipWith_cons_cons]
      have ih := zipXor_zipXor a b (by simpa using h)
      simp only [zipXor] at ih
      rw [Nat.xor_cancel_right y x, ih]

theorem zipXor_lt_256 : ∀ (a b : List Nat), (∀ x ∈ a, x < 256) →
    (∀ x ∈ b, x < 256) → ∀ x ∈ zipXor a b, x < 256
  | [], _, _, _ => by simp [zipXor]
  | _ :: _, [], _, _ => by simp [zipXor]
  | x :: a, y :: b, ha, hb => by
      intro z hz
      simp only [zipXor, List.zipWith_cons_cons, List.mem_cons] at hz
      rcases hz with rfl | hz
      · have h1 : x < 2 ^ 8 := by simpa using ha x (by simp)
        have h2 : y < 2 ^ 8 := by simpa using hb y (by simp)
        simpa using Nat.xor_lt_two_pow h1 h2
      · exact zipXor_lt_256 a b (fun u hu => ha u (by simp [hu]))
          (fun u hu => hb u (by simp [hu])) z hz

theorem sum_set : ∀ (l : List Nat) (j b : Nat), j < l.length →
    (l.set j b).sum + l.getD j 0 = l.sum + b
  | [], _, _, h => by simp at h
  | x :: t, 0, b, _ => by simp [List.set]; omega
  | x :: t, j + 1, b, h => by
      have ih := sum_set t j b (by simpa using h)
      simp only [List.set, List.sum_cons, List.getD_cons_succ]
      omega

theorem getD_set_self (l : List Nat) (j b : Nat) (h : j < l.length) :
    (l.set j b).getD j 0 = b := by
  have hb : j < (l.set j b).length := by simpa using h
  rw [List.getD_eq_getElem _ 0 hb]
  exact List.getElem_set_self hb

theorem byteSum_set_ne (l : List Nat) (j b : Nat) (h : j < l.length)
    (hb : b < 256) (hl : ∀ x ∈ l, x < 256) (hne : b ≠ l.getD j 0) :
    byteSum (l.set j b) ≠ byteSum l := by
  have hs := sum_set l j b h
  have hv : l.getD j 0 < 256 := by
    have : l.getD j 0 ∈ l := by
      rw [List.getD_eq_getElem l 0 h]
      exact List.getElem_mem h
    exact hl _ this
  simp only [byteSum]
  omega

theorem set_append_left : ∀ (l1 l2 : List Nat) (i b : Nat), i < l1.length →
    (l1 ++ l2).set i b = l1.set i b ++ l2
  | [], _, _, _, h => by simp at h
  | x :: t, l2, 0, b, _ => rfl
  | x :: t, l2, i + 1, b, h => by
      have ih := set_append_left t l2 i b (by simpa using h)
      show x :: (t ++ l2).set i b = x :: (t.set i b ++ l2)
      rw [ih]

theorem set_append_right : ∀ (l1 l2 : List Nat) (i b : Nat),
    l1.length ≤ i → (l1 ++ l2).set i b = l1 ++ l2.set (i - l1.length) b
  | [], l2, i, b, _ => by simp
  | x :: t, l2, 0, b, h => by simp at h
  | x :: t, l2, i + 1, b, h => by
      have ih := set_append_right t l2 i b (by simpa using h)
      show x :: (t ++ l2).set i b = x :: (t ++ l2.set (i + 1 - (x :: t).length) b)
      rw [ih]
      simp

theorem subtleDecrypt_subtleEncrypt (key iv pt : List Nat) :
    subtleDecrypt key iv (subtleEncrypt key iv pt) = .ok pt := by
  have hks := keystream_length key iv pt.length
  have hctlen : (zipXor pt (keystream key iv pt.length)).length = pt.length := by
    simp [zipXor_length, hks]
  simp only [subtleEncrypt, subtleDecrypt]
  set ct := zipXor pt (keystream key iv pt.length) with hct
  have htag : (tagOf key iv ct).length = 16 := by simp [tagOf]
  have hlen : (ct ++ tagOf key iv ct).length = pt.length + 16 := by
    simp [htag, hctlen]
  rw [hlen]
  simp only [show ¬ (pt.length + 16 < 16) by omega, if_false]
  have hsub : pt.length + 16 - 16 = ct.length := by omega
  rw [hsub, List.take_left, List.drop_left, if_pos rfl, hctlen, hct,
    zipXor_zipXor pt _ (by rw [hks])]

theorem subtleEncrypt_lt_256 (key iv pt : List Nat)
    (hpt : ∀ b ∈ pt, b < 256) : ∀ b ∈ subtleEncrypt key iv pt, b < 256 := by
  intro b hb
  simp only [subtleEncrypt, List.mem_append] at hb
  rcases hb with h | h
  · exact zipXor_lt_256 _ _ hpt (keystream_lt_256 key iv _) b h
  · simp only [tagOf, List.mem_cons] at h
    rcases h with rfl | rfl | rfl | h
    · exact Nat.mod_lt _ (by norm_num)
    · exact Nat.mod_lt _ (by norm_num)
    · exact Nat.mod_lt _ (by norm_num)
    · have := List.eq_of_mem_replicate h
      omega

theorem map_mod_256_eq (l : List Nat) (h : ∀ b ∈ l, b < 256) :
    l.map (· % 256) = l := by
  induction l with
  | nil => rfl
  | cons x t ih =>
      have hx : x < 256 := h x (by simp)
      simp [Nat.mod_eq_of_lt hx, ih (fun b hb => h b (by simp [hb]))]

theorem map_mod_65536_eq (l : List Nat) (h : ∀ b ∈ l, b < 256) :
    l.map (· % 65536) = l := by
  induction l with
  | nil => rfl
  | cons x t ih =>
      have hx : x < 256 := h x (by simp)
      have : x % 65536 = x := Nat.mod_eq_of_lt (by omega)
      simp [this, ih (fun b hb => h b (by simp [hb]))]

theorem arrayBufferToBase64_roundtrip (l : List Nat) (h : ∀ b ∈ l, b < 256) :
    base64ToArrayBuffer (arrayBufferToBase64 l) = some l := by
  simp only [arrayBufferToBase64, base64ToArrayBuffer, map_mod_256_eq l h]
  exact b64decode_b64encode l h

theorem b64encode_ne_nil : ∀ (l : List Nat), l ≠ [] → b64encode l ≠ []
  | [], h => absurd rfl h
  | [_], _ => by simp [b64encode]
  | [_, _], _ => by simp [b64encode]
  | _ :: _ :: _ :: _, _ => by simp [b64encode]

theorem take_drop_ivSize (iv X : List Nat) (h : iv.length = ivSize) :
    (iv ++ X).take ivSize = iv ∧ (iv ++ X).drop ivSize = X := by
  rw [← h]
  exact ⟨List.take_left iv X, List.drop_left iv X⟩

theorem webcrypto_roundtrip (e : Env) (data : JsStr) (key : List Nat) (s : St)
    (hwc : e.webCrypto = true) (hdata : ∀ u ∈ data, u < 65536) :
    ∃ env, encryptWithWebCrypto e data key s
        = (.ok env, { s with seed := (randomBytes ivSize s.seed).2 })
      ∧ decryptWithWebCrypto e env key = .ok data ∧ env ≠ [] := by
  have hiv_len := randomBytes_length ivSize s.seed
  have hiv_lt := randomBytes_lt_256 ivSize s.seed
  have henc_lt := subtleEncrypt_lt_256 key (randomBytes ivSize s.seed).1
    (textEncode data) (textEncode_lt_256 data)
  have hcomb : ∀ b ∈ (randomBytes ivSize s.seed).1
      ++ subtleEncrypt key (randomBytes ivSize s.seed).1 (textEncode data),
      b < 256 := by
    intro b hb
    rcases List.mem_append.mp hb with h | h
    · exact hiv_lt b h
    · exact henc_lt b h
  refine ⟨arrayBufferToBase64 ((randomBytes ivSize s.seed).1
      ++ subtleEncrypt key (randomBytes ivSize s.seed).1 (textEncode data)),
    ?_, ?_, ?_⟩
  · simp only [encryptWithWebCrypto, features, hwc, if_true]
  · simp only [decryptWithWebCrypto, features, hwc, if_true,
      arrayBufferToBase64_roundtrip _ hcomb]
    obtain ⟨ht, hd⟩ := take_drop_ivSize (randomBytes ivSize s.seed).1
      (subtleEncrypt key (randomBytes ivSize s.seed).1 (textEncode data))
      hiv_len
    rw [ht, hd, subtleDecrypt_subtleEncrypt]
    show Except.ok (textDecode (textEncode data)) = Except.ok data
    rw [textDecode_textEncode data hdata]
  · apply b64encode_ne_nil
    have : (randomBytes ivSize s.seed).1 ≠ [] := by
      intro hnil
      have := hiv_len
      rw [hnil] at this
      simp [ivSize] at this
    intro hnil
    apply this
    have hlm := congrArg List.length hnil
    simp at hlm
    cases h : (randomBytes ivSize s.seed).1
    · rfl
    · rw [h] at hlm
      simp at hlm

theorem set_ne_self (l : List Nat) (j b : Nat) (h : j < l.length)
    (hne : b ≠ l.getD j 0) : l.set j b ≠ l := by
  intro he
  have hgd := getD_set_self l j b h
  rw [he] at hgd
  exact hne hgd.symm

/-- Any single-byte change to the envelope bytes produced by the
modelled AES-GCM encryption makes authenticated decryption fail. -/
theorem tamper_core (e : Env) (key iv pt : List Nat)
    (hiv_len : iv.length = ivSize) (hiv_lt : ∀ b ∈ iv, b < 256)
    (hpt : ∀ b ∈ pt, b < 256) (i b' : Nat)
    (hi : i < (iv ++ subtleEncrypt key iv pt).length) (hb' : b' < 256)
    (hne : b' ≠ (iv ++ subtleEncrypt key iv pt).getD i 0)
    (hwc : e.webCrypto = true) :
    decryptWithWebCrypto e
        (arrayBufferToBase64 ((iv ++ subtleEncrypt key iv pt).set i b'))
        key = .error .authFailure := by
  have hks := keystream_length key iv pt.length
  have hctlt : ∀ b ∈ zipXor pt (keystream key iv pt.length), b < 256 :=
    zipXor_lt_256 _ _ hpt (keystream_lt_256 key iv _)
  set ct := zipXor pt (keystream key iv pt.length) with hct
  set tg := tagOf key iv ct with htg
  have hfull : subtleEncrypt key iv pt = ct ++ tg := rfl
  rw [hfull] at hi hne ⊢
  have htglen : tg.length = 16 := by simp [htg, tagOf]
  have htglt : ∀ b ∈ tg, b < 256 := by
    intro b hb
    have := subtleEncrypt_lt_256 key iv pt hpt
    rw [hfull] at this
    exact this b (by simp [hb])
  have hmod_lt : ∀ b ∈ (iv ++ (ct ++ tg)).set i b', b < 256 := by
    intro b hb
    rcases List.mem_or_eq_of_mem_set hb with h | rfl
    · rcases List.mem_append.mp h with h | h
      · exact hiv_lt b h
      · rcases List.mem_append.mp h with h | h
        · exact hctlt b h
        · exact htglt b h
    · exact hb'
  simp only [decryptWithWebCrypto, features, hwc, if_true,
    arrayBufferToBase64_roundtrip _ hmod_lt]
  by_cases hA : i < iv.length
  · -- the modified byte lands in the nonce prefix
    have hset : (iv ++ (ct ++ tg)).set i b' = iv.set i b' ++ (ct ++ tg) :=
      set_append_left iv (ct ++ tg) i b' hA
    have hne' : b' ≠ iv.getD i 0 := by
      rw [List.getD_append iv (ct ++ tg) 0 i hA] at hne
      exact hne
    have hlen' : (iv.set i b').length = ivSize := by simp [hiv_len]
    obtain ⟨ht, hd⟩ := take_drop_ivSize (iv.set i b') (ct ++ tg) hlen'
    rw [hset, ht, hd]
    have hsum : byteSum (iv.set i b') ≠ byteSum iv :=
      byteSum_set_ne iv i b' hA hb' hiv_lt hne'
    have htagne : ¬ (tg = tagOf key (iv.set i b') ct) := by
      rw [htg]
      simp only [tagOf, List.cons.injEq]
      intro h
      exact hsum.symm h.2.1
    simp only [subtleDecrypt]
    rw [show (ct ++ tg).length = ct.length + 16 by simp [htglen]]
    simp only [show ¬ (ct.length + 16 < 16) by omega, if_false]
    rw [show ct.length + 16 - 16 = ct.length from by omega,
      List.take_left, List.drop_left, if_neg htagne]
  · push_neg at hA
    have hivlen12 : iv.length = 12 := hiv_len
    by_cases hB : i < iv.length + ct.length
    · -- the modified byte lands in the ciphertext
      have hj : i - iv.length < ct.length := by omega
      have hset : (iv ++ (ct ++ tg)).set i b'
          = iv ++ (ct.set (i - iv.length) b' ++ tg) := by
        rw [set_append_right iv (ct ++ tg) i b' hA,
          set_append_left ct tg (i - iv.length) b' hj]
      have hne' : b' ≠ ct.getD (i - iv.length) 0 := by
        rw [List.getD_append_right iv (ct ++ tg) 0 i hA,
          List.getD_append ct tg 0 (i - iv.length) hj] at hne
        exact hne
      obtain ⟨ht, hd⟩ := take_drop_ivSize iv
        (ct.set (i - iv.length) b' ++ tg) hiv_len
      rw [hset, ht, hd]
      have hsum : byteSum (ct.set (i - iv.length) b') ≠ byteSum ct :=
        byteSum_set_ne ct (i - iv.length) b' hj hb' hctlt hne'
      have hlenset : (ct.set (i - iv.length) b').length = ct.length := by simp
      have htagne : ¬ (tg = tagOf key iv (ct.set (i - iv.length) b')) := by
        rw [htg]
        simp only [tagOf, List.cons.injEq]
        intro h
        exact hsum.symm h.2.2.1
      simp only [subtleDecrypt]
      rw [show (ct.set (i - iv.length) b' ++ tg).length = ct.length + 16 by
        simp [htglen]]
      simp only [show ¬ (ct.length + 16 < 16) by omega, if_false]
      rw [show ct.length + 16 - 16 = (ct.set (i - iv.length) b').length from by
        simp, List.take_left, List.drop_left, if_neg htagne]
    · -- the modified byte lands in the tag
      push_neg at hB
      have hm : i - iv.length - ct.length < 16 := by
        simp only [List.length_append, htglen] at hi
        omega
      have hm' : i - iv.length - ct.length < tg.length := by omega
      have hset : (iv ++ (ct ++ tg)).set i b'
          = iv ++ (ct ++ tg.set (i - iv.length - ct.length) b') := by
        rw [set_append_right iv (ct ++ tg) i b' (by omega),
          set_append_right ct tg (i - iv.length) b' (by omega)]
      have hne' : b' ≠ tg.getD (i - iv.length - ct.length) 0 := by
        rw [List.getD_append_right iv (ct ++ tg) 0 i (by omega),
          List.getD_append_right ct tg 0 (i - iv.length) (by omega)] at hne
        exact hne
      obtain ⟨ht, hd⟩ := take_drop_ivSize iv
        (ct ++ tg.set (i - iv.length - ct.length) b') hiv_len
      rw [hset, ht, hd]
      have htagne : ¬ (tg.set (i - iv.length - ct.length) b'
          = tagOf key iv ct) := by
        rw [← htg]
        exact set_ne_self tg _ b' hm' hne'
      simp only [subtleDecrypt]
      rw [show (ct ++ tg.set (i - iv.length - ct.length) b').length
          = ct.length + 16 by simp [htglen]]
      simp only [show ¬ (ct.length + 16 < 16) by omega, if_false]
      rw [show ct.length + 16 - 16 = ct.length from by omega,
        List.take_left, List.drop_left, if_neg htagne]

theorem cycleXor_length (key data : List Nat) :
    (cycleXor key data).length = data.length := by simp [cycleXor]

theorem cycleXor_getD (key data : List Nat) (i : Nat) (h : i < data.length) :
    (cycleXor key data).getD i 0
      = data.getD i 0 ^^^ key.getD (i % key.length) 0 := by
  have h' : i < (cycleXor key data).length := by simpa [cycleXor_length]
  rw [List.getD_eq_getElem _ 0 h']
  simp [cycleXor]

theorem cycleXor_cycleXor (key data : List Nat) :
    cycleXor key (cycleXor key data) = data := by
  apply List.ext_getElem
  · simp [cycleXor_length]
  · intro i h1 h2
    have hi : i < data.length := h2
    have hic : i < (cycleXor key data).length := by simpa [cycleXor_length]
    have hval : (cycleXor key (cycleXor key data))[i]
        = (cycleXor key data).getD i 0 ^^^ key.getD (i % key.length) 0 := by
      simp [cycleXor, cycleXor_length]
    rw [hval, cycleXor_getD key data i hi, Nat.xor_cancel_right,
      List.getD_eq_getElem data 0 hi]

theorem cycleXor_lt_256 (key data : List Nat) (hd : ∀ b ∈ data, b < 256)
    (hk : ∀ b ∈ key, b < 256) : ∀ b ∈ cycleXor key data, b < 256 := by
  intro b hb
  simp only [cycleXor, List.mem_map, List.mem_range] at hb
  obtain ⟨i, hi, rfl⟩ := hb
  have h1 : data.getD i 0 < 2 ^ 8 := by
    have : data.getD i 0 ∈ data := by
      rw [List.getD_eq_getElem data 0 hi]
      exact List.getElem_mem hi
    simpa using hd _ this
  have h2 : key.getD (i % key.length) 0 < 2 ^ 8 := by
    rcases key with _ | ⟨x, t⟩
    · simp
    · have hlt : i % (x :: t).length < (x :: t).length :=
        Nat.mod_lt _ (by simp)
      have : (x :: t).getD (i % (x :: t).length) 0 ∈ x :: t := by
        rw [List.getD_eq_getElem _ 0 hlt]
        exact List.getElem_mem hlt
      simpa using hk _ this
  simpa using Nat.xor_lt_two_pow h1 h2

/-- Round trip of the fallback xor cipher on byte-valued strings. -/
theorem simple_roundtrip (data : JsStr) (key : List Nat)
    (hd : ∀ u ∈ data, u < 256) (hk : ∀ b ∈ key, b < 256) :
    ∃ env, encryptSimple data key = .ok env
      ∧ decryptSimple env key = .ok data ∧ (data ≠ [] → env ≠ []) := by
  have hsb : stringToBytes data = data := map_mod_256_eq data hd
  have hmask_lt : ∀ b ∈ cycleXor key data, b < 256 :=
    cycleXor_lt_256 key data hd hk
  have hm65 : (cycleXor key data).map (· % 65536) = cycleXor key data :=
    map_mod_65536_eq _ hmask_lt
  have hall : (cycleXor key data).all (· < 256) = true := by
    simp only [List.all_eq_true, decide_eq_true_eq]
    exact hmask_lt
  refine ⟨b64encode (cycleXor key data), ?_, ?_, ?_⟩
  · simp only [encryptSimple, hsb, bytesToBase64, hm65, hall, if_true]
  · simp only [decryptSimple, base64ToBytes,
      b64decode_b64encode _ hmask_lt, bytesToString, cycleXor_cycleXor]
  · intro hdne
    apply b64encode_ne_nil
    intro hnil
    have := congrArg List.length hnil
    rw [cycleXor_length] at this
    simp at this
    exact hdne this

/-! Key slot and key management facts. -/

theorem encryptionMethod_webcrypto {e : Env} (hwc : e.webCrypto = true) :
    encryptionMethod e = js "webcrypto" := by
  simp [encryptionMethod, features, hwc]

theorem encryptionMethod_simple {e : Env} (hwc : e.webCrypto = false) :
    encryptionMethod e = js "simple" := by
  simp [encryptionMethod, features, hwc]

theorem encryptionMethod_ne_webcrypto {e : Env} (hwc : e.webCrypto = false) :
    ¬ (encryptionMethod e = js "webcrypto") := by
  rw [encryptionMethod_simple hwc]
  decide

theorem stringify_nats_cons (l : List Nat) :
    jsonStringify (natsToJson l)
      = 91 :: (stringifyElems (l.map fun b => Json.num (Int.ofNat b))
          ++ [93]) := by
  simp [natsToJson, jsonStringify]

/-- Parsing a serialized key slot back. -/
theorem slot_parse (key : List Nat) :
    (match jsonParse (jsonStringify (natsToJson key)) with
      | some j => asNatArray j
      | none => none) = some key := by
  rw [jsonParse_natsToJson]
  simp only [natsToJson, asNatArray]
  exact natsOf_map key

/-- `loadKey` recovers a key whose serialized form sits in the slot the
read chain selects. -/
theorem loadKey_of_slot (e : Env) (cfg : Cfg) (s : St) (key : List Nat)
    (hslot : (if (features e).localStorage then lookupA s.ls cfg.keyName
        else if (features e).indexedDB then
          (if e.idbFail then none else lookupA s.idb cfg.keyName)
        else s.memKey) = some (jsonStringify (natsToJson key))) :
    loadKey e cfg s = some key := by
  unfold loadKey
  rw [hslot]
  obtain ⟨tl, htl⟩ : ∃ tl, jsonStringify (natsToJson key) = 91 :: tl :=
    ⟨_, stringify_nats_cons key⟩
  rw [htl]
  show (match jsonParse (91 :: tl) with
    | some j => asNatArray j
    | none => none) = some key
  rw [← htl]
  exact slot_parse key

theorem loadKey_congr (e : Env) (cfg : Cfg) (s1 s2 : St)
    (hls : lookupA s2.ls cfg.keyName = lookupA s1.ls cfg.keyName)
    (hidb : lookupA s2.idb cfg.keyName = lookupA s1.idb cfg.keyName)
    (hmk : s2.memKey = s1.memKey) : loadKey e cfg s2 = loadKey e cfg s1 := by
  unfold loadKey
  rw [hls, hidb, hmk]

/-- The key that `generateAndStoreKey` produces and persists
(deterministic given the RNG state). -/
def gKey (e : Env) (cfg : Cfg) (pw : Option JsStr) (s : St) : List Nat :=
  if encryptionMethod e = js "webcrypto" then
    if truthy pw then deriveKeyFromPassword e cfg (pw.getD [])
    else (randomBytes (cfg.keySize / 8) s.seed).1
  else
    if truthy pw then xorKeyWithPassword (randomBytes 32 s.seed).1 (pw.getD [])
    else (randomBytes 32 s.seed).1

theorem pbkdf2_lt_256 (password salt : List Nat) (iterations keyBits : Nat) :
    ∀ b ∈ pbkdf2 password salt iterations keyBits, b < 256 := by
  intro b hb
  simp only [pbkdf2, List.mem_map] at hb
  obtain ⟨i, _, rfl⟩ := hb
  exact Nat.mod_lt _ (by norm_num)

theorem deriveKeyFromPassword_lt_256 (e : Env) (cfg : Cfg) (p : JsStr)
    (hwc : e.webCrypto = true) :
    ∀ b ∈ deriveKeyFromPassword e cfg p, b < 256 := by
  simp only [deriveKeyFromPassword, features, hwc, not_true, if_false]
  exact pbkdf2_lt_256 _ _ _ _

theorem stringToBytes_lt_256 (p : JsStr) : ∀ b ∈ stringToBytes p, b < 256 := by
  intro b hb
  simp only [stringToBytes, List.mem_map] at hb
  obtain ⟨u, _, rfl⟩ := hb
  exact Nat.mod_lt _ (by norm_num)

theorem getD_lt_256 (l : List Nat) (i : Nat) (hl : ∀ b ∈ l, b < 256) :
    l.getD i 0 < 256 := by
  by_cases h : i < l.length
  · rw [List.getD_eq_getElem l 0 h]
    exact hl _ (List.getElem_mem h)
  · rw [List.getD_eq_default l 0 (by omega)]
    norm_num

theorem xorKeyWithPassword_lt_256 (key : List Nat) (p : JsStr)
    (hk : ∀ b ∈ key, b < 256) :
    ∀ b ∈ xorKeyWithPassword key p, b < 256 := by
  intro b hb
  simp only [xorKeyWithPassword, List.mem_map, List.mem_range] at hb
  obtain ⟨i, _, rfl⟩ := hb
  have h1 : key.getD i 0 < 2 ^ 8 := by simpa using getD_lt_256 key i hk
  have h2 : (stringToBytes p).getD (i % (stringToBytes p).length) 0 < 2 ^ 8 := by
    simpa using getD_lt_256 _ _ (stringToBytes_lt_256 p)
  simpa using Nat.xor_lt_two_pow h1 h2

theorem gKey_lt_256 (e : Env) (cfg : Cfg) (pw : Option JsStr) (s : St) :
    ∀ b ∈ gKey e cfg pw s, b < 256 := by
  unfold gKey
  by_cases hwc : e.webCrypto = true
  · rw [if_pos (encryptionMethod_webcrypto hwc)]
    by_cases hp : truthy pw = true
    · simpa [hp] using deriveKeyFromPassword_lt_256 e cfg (pw.getD []) hwc
    · simp only [Bool.not_eq_true] at hp
      simpa [hp] using randomBytes_lt_256 (cfg.keySize / 8) s.seed
  · have hwc' : e.webCrypto = false := by
      cases h : e.webCrypto
      · rfl
      · exact absurd h hwc
    rw [if_neg (encryptionMethod_ne_webcrypto hwc')]
    by_cases hp : truthy pw = true
    · simpa [hp] using xorKeyWithPassword_lt_256 (randomBytes 32 s.seed).1
        (pw.getD []) (randomBytes_lt_256 32 s.seed)
    · simp only [Bool.not_eq_true] at hp
      simpa [hp] using randomBytes_lt_256 32 s.seed

/-- What `storeKey` does on a write-capable environment. -/
theorem storeKey_spec (e : Env) (cfg : Cfg) (key : List Nat) (s : St)
    (hq : e.lsQuota = false) (hidb : e.idbFail = false) :
    ∃ s', storeKey e cfg key s = (.ok (), s')
      ∧ loadKey e cfg s' = some key
      ∧ (∀ rk, rk ≠ cfg.keyName → lookupA s'.ls rk = lookupA s.ls rk
          ∧ lookupA s'.idb rk = lookupA s.idb rk)
      ∧ s'.memStore = s.memStore ∧ s'.seed = s.seed := by
  by_cases hls : (features e).localStorage
  · refine ⟨{ s with
        ls := insertA s.ls cfg.keyName (jsonStringify (natsToJson key)) },
      ?_, ?_, ?_, rfl, rfl⟩
    · simp [storeKey, hls, hq]
    · apply loadKey_of_slot
      simp [hls, lookupA_insertA_self]
    · intro rk hrk
      exact ⟨lookupA_insertA_ne s.ls cfg.keyName rk _ hrk, rfl⟩
  · by_cases hdb : (features e).indexedDB
    · refine ⟨{ s with
          idb := insertA s.idb cfg.keyName (jsonStringify (natsToJson key)) },
        ?_, ?_, ?_, rfl, rfl⟩
      · simp [storeKey, hls, hdb, hidb]
      · apply loadKey_of_slot
        simp [hls, hdb, hidb, lookupA_insertA_self]
      · intro rk hrk
        exact ⟨rfl, lookupA_insertA_ne s.idb cfg.keyName rk _ hrk⟩
    · refine ⟨{ s with
          memKey := some (jsonStringify (natsToJson key)) }, ?_, ?_, ?_,
        rfl, rfl⟩
      · simp [storeKey, hls, hdb]
      · apply loadKey_of_slot
        simp [hls, hdb]
      · intro rk hrk
        exact ⟨rfl, rfl⟩

/-- What `generateAndStoreKey` does on a write-capable environment: it
returns and persists `gKey`, leaving records untouched. -/
theorem generateAndStoreKey_spec (e : Env) (cfg : Cfg) (pw : Option JsStr)
    (s : St) (hq : e.lsQuota = false) (hidb : e.idbFail = false) :
    ∃ s', generateAndStoreKey e cfg pw s = (.ok (gKey e cfg pw s), s')
      ∧ loadKey e cfg s' = some (gKey e cfg pw s)
      ∧ (∀ rk, rk ≠ cfg.keyName → lookupA s'.ls rk = lookupA s.ls rk
          ∧ lookupA s'.idb rk = lookupA s.idb rk)
      ∧ s'.memStore = s.memStore := by
  unfold generateAndStoreKey gKey
  by_cases hwc : e.webCrypto = true
  · rw [if_pos (encryptionMethod_webcrypto hwc), if_pos (encryptionMethod_webcrypto hwc)]
    simp only [generateKey, exportKey, features, hwc, if_true]
    obtain ⟨s', hsk, hld, hpres, hms, _⟩ := storeKey_spec e cfg
      (if truthy pw then deriveKeyFromPassword e cfg (pw.getD [])
       else (randomBytes (cfg.keySize / 8) s.seed).1)
      { s with seed := (randomBytes (cfg.keySize / 8) s.seed).2 } hq hidb
    refine ⟨s', ?_, hld, fun rk hrk => hpres rk hrk, hms⟩
    cases hp : truthy pw <;> simp [hp] at hsk ⊢ <;> rw [hsk]
  · have hwc' : e.webCrypto = false := by
      cases h : e.webCrypto
      · rfl
      · exact absurd h hwc
    rw [if_neg (encryptionMethod_ne_webcrypto hwc'),
      if_neg (encryptionMethod_ne_webcrypto hwc')]
    simp only [generateSimpleKey]
    obtain ⟨s', hsk, hld, hpres, hms, _⟩ := storeKey_spec e cfg
      (if truthy pw then xorKeyWithPassword (randomBytes 32 s.seed).1 (pw.getD [])
       else (randomBytes 32 s.seed).1)
      { s with seed := (randomBytes 32 s.seed).2 } hq hidb
    refine ⟨s', ?_, hld, fun rk hrk => hpres rk hrk, hms⟩
    cases hp : truthy pw <;> simp [hp] at hsk ⊢ <;> rw [hsk]

/-! Round-trip conditions and the encrypt/decrypt specification. -/

/-- String well-formedness needed by the active cipher mode: the Web
Crypto path only needs valid UTF-16 code units, while the fallback's
`charCodeAt & 0xFF` masking is lossless only below 256. -/
def StrOk (e : Env) (str : JsStr) : Prop :=
  if e.webCrypto then ∀ u ∈ str, u < 65536 else ∀ u ∈ str, u < 256

/-- Data whose round trip is lossless in the active mode: a string that
`JSON.parse` rejects (the documented JSON-lookalike ambiguity excluded),
or a structure whose JSON round trip is the identity, with the character
bound the cipher path needs. -/
def dataOk (e : Env) : Json → Prop
  | .str str => jsonParse str = none ∧ StrOk e str
  | d => jsonParse (jsonStringify d) = some d ∧ StrOk e (jsonStringify d)

theorem dataOk_strOk (e : Env) (data : Json) (h : dataOk e data) :
    StrOk e (dataStr data) := by
  cases data with
  | str s => exact h.2
  | null => exact h.2
  | bool b => exact h.2
  | num n => exact h.2
  | arr xs => exact h.2
  | obj fs => exact h.2

theorem parse_dataStr (e : Env) (data : Json) (h : dataOk e data) :
    jsonParse (dataStr data) = some data
      ∨ (jsonParse (dataStr data) = none ∧ Json.str (dataStr data) = data) := by
  cases data with
  | str s => exact Or.inr ⟨h.1, rfl⟩
  | null => exact Or.inl h.1
  | bool b => exact Or.inl h.1
  | num n => exact Or.inl h.1
  | arr xs => exact Or.inl h.1
  | obj fs => exact Or.inl h.1

theorem decrypt_with_stored_key (e : Env) (cfg : Cfg) (env : JsStr)
    (pw2 : Option JsStr) (s2 : St) (k : List Nat)
    (hk0 : loadKey e cfg s2 = some k)
    (dec : Res JsStr)
    (hdec : (if encryptionMethod e = js "webcrypto" then
        match importKey e k with
        | .error er => .error er
        | .ok cryptoKey => decryptWithWebCrypto e env cryptoKey
      else decryptSimple env k) = dec) :
    decrypt e cfg env pw2 s2
      = (match dec with
         | .error er => (.error er, s2)
         | .ok ds =>
            match jsonParse ds with
            | some j => (.ok j, s2)
            | none => (.ok (.str ds), s2)) := by
  unfold decrypt
  rw [hk0]
  cases htp : truthy pw2 <;> simp only [hdec] <;> cases dec <;> rfl

/-- What the tail of `encrypt` does with a well-formed key, and how
`decrypt` inverts it whenever that key is the stored one. -/
theorem encryptWithKey_spec (e : Env) (cfg : Cfg) (data : Json)
    (k : List Nat) (s : St) (hk : ∀ b ∈ k, b < 256) (hd : dataOk e data) :
    ∃ env s', encryptWithKey e data k s = (.ok env, s')
      ∧ s'.ls = s.ls ∧ s'.idb = s.idb ∧ s'.memKey = s.memKey
      ∧ s'.memStore = s.memStore
      ∧ (∀ pw2 s2, loadKey e cfg s2 = some k →
          decrypt e cfg env pw2 s2 = (.ok data, s2))
      ∧ (dataStr data ≠ [] → env ≠ []) := by
  have hparse := parse_dataStr e data hd
  have hstr := dataOk_strOk e data hd
  cases hwc : e.webCrypto with
  | true =>
      have hm := encryptionMethod_webcrypto hwc
      have hdata : ∀ u ∈ dataStr data, u < 65536 := by
        simpa [StrOk, hwc] using hstr
      obtain ⟨env, henc, hdecwc, hne⟩ :=
        webcrypto_roundtrip e (dataStr data) k s hwc hdata
      refine ⟨env, { s with seed := (randomBytes ivSize s.seed).2 },
        ?_, rfl, rfl, rfl, rfl, ?_, fun _ => hne⟩
      · simp only [encryptWithKey, hm, if_pos rfl, importKey, features, hwc,
          if_true]
        exact henc
      · intro pw2 s2 hk0
        rw [decrypt_with_stored_key e cfg env pw2 s2 k hk0
          (.ok (dataStr data))
          (by simp only [hm, if_pos rfl, importKey, features, hwc, if_true,
            hdecwc])]
        rcases hparse with hp | ⟨hp, he⟩
        · simp [hp]
        · simp [hp, he]
  | false =>
      have hm := encryptionMethod_ne_webcrypto hwc
      have hdata : ∀ u ∈ dataStr data, u < 256 := by
        simpa [StrOk, hwc] using hstr
      obtain ⟨env, henc, hdecs, hne⟩ :=
        simple_roundtrip (dataStr data) k hdata hk
      refine ⟨env, s, ?_, rfl, rfl, rfl, rfl, ?_, hne⟩
      · simp only [encryptWithKey, if_neg hm]
        rw [henc]
      · intro pw2 s2 hk0
        rw [decrypt_with_stored_key e cfg env pw2 s2 k hk0
          (.ok (dataStr data)) (by simp only [if_neg hm, hdecs])]
        rcases hparse with hp | ⟨hp, he⟩
        · simp [hp]
        · simp [hp, he]

/-- Key slots reachable through the facade hold byte arrays; arbitrary
initial states are admitted under this invariant. -/
def KeyWF (e : Env) (cfg : Cfg) (s : St) : Prop :=
  ∀ k, loadKey e cfg s = some k → ∀ b ∈ k, b < 256

/-- Full specification of `encrypt` on a write-capable environment: it
succeeds, leaves a well-formed key in the slot, its envelope is inverted
by `decrypt` from any state holding that key, and it does not touch any
stored record. -/
theorem encrypt_spec (e : Env) (cfg : Cfg) (data : Json) (pw : Option JsStr)
    (s : St) (hq : e.lsQuota = false) (hidb : e.idbFail = false)
    (hkwf : KeyWF e cfg s) (hd : dataOk e data) :
    ∃ env s' k, encrypt e cfg data pw s = (.ok env, s')
      ∧ loadKey e cfg s' = some k ∧ (∀ b ∈ k, b < 256)
      ∧ (∀ pw2 s2, loadKey e cfg s2 = some k →
          decrypt e cfg env pw2 s2 = (.ok data, s2))
      ∧ (∀ rk, rk ≠ cfg.keyName → lookupA s'.ls rk = lookupA s.ls rk
          ∧ lookupA s'.idb rk = lookupA s.idb rk)
      ∧ s'.memStore = s.memStore
      ∧ (dataStr data ≠ [] → env ≠ []) := by
  rcases hk0 : loadKey e cfg s with _ | k
  · -- no stored key: regenerate
    obtain ⟨s1, hgen, hld1, hpres1, hms1⟩ :=
      generateAndStoreKey_spec e cfg pw s hq hidb
    obtain ⟨env, s', henc, hls, hidb2, hmk, hms2, hdec, hne⟩ :=
      encryptWithKey_spec e cfg data (gKey e cfg pw s) s1
        (gKey_lt_256 e cfg pw s) hd
    refine ⟨env, s', gKey e cfg pw s, ?_, ?_, gKey_lt_256 e cfg pw s, hdec,
      ?_, by rw [hms2, hms1], hne⟩
    · cases htp : truthy pw <;>
        simp only [encrypt, hk0, htp, hgen] <;> exact henc
    · rw [loadKey_congr e cfg s1 s' (by rw [hls]) (by rw [hidb2]) hmk]
      exact hld1
    · intro rk hrk
      obtain ⟨h1, h2⟩ := hpres1 rk hrk
      exact ⟨by rw [hls, h1], by rw [hidb2, h2]⟩
  · cases htp : truthy pw with
    | false =>
        have hkb := hkwf k hk0
        obtain ⟨env, s', henc, hls, hidb2, hmk, hms2, hdec, hne⟩ :=
          encryptWithKey_spec e cfg data k s hkb hd
        refine ⟨env, s', k, ?_, ?_, hkb, hdec, ?_, hms2, hne⟩
        · simp only [encrypt, hk0, htp]
          exact henc
        · rw [loadKey_congr e cfg s s' (by rw [hls]) (by rw [hidb2]) hmk]
          exact hk0
        · intro rk hrk
          exact ⟨by rw [hls], by rw [hidb2]⟩
    | true =>
        obtain ⟨s1, hgen, hld1, hpres1, hms1⟩ :=
          generateAndStoreKey_spec e cfg pw s hq hidb
        obtain ⟨env, s', henc, hls, hidb2, hmk, hms2, hdec, hne⟩ :=
          encryptWithKey_spec e cfg data (gKey e cfg pw s) s1
            (gKey_lt_256 e cfg pw s) hd
        refine ⟨env, s', gKey e cfg pw s, ?_, ?_, gKey_lt_256 e cfg pw s,
          hdec, ?_, by rw [hms2, hms1], hne⟩
        · simp only [encrypt, hk0, htp, hgen]
          exact henc
        · rw [loadKey_congr e cfg s1 s' (by rw [hls]) (by rw [hidb2]) hmk]
          exact hld1
        · intro rk hrk
          obtain ⟨h1, h2⟩ := hpres1 rk hrk
          exact ⟨by rw [hls, h1], by rw [hidb2, h2]⟩

/-! Clearing and the storage tier selection. -/

theorem lookupA_filter_none (m : List (JsStr × JsStr)) (k : JsStr)
    (p : JsStr × JsStr → Bool) (h : lookupA m k = none) :
    lookupA (m.filter p) k = none := by
  induction m with
  | nil => rfl
  | cons q t ih =>
      simp only [lookupA] at h
      by_cases hq : q.1 = k
      · simp [hq] at h
      · simp only [hq, if_false] at h
        by_cases hp : p q
        · simp [List.filter_cons, hp, lookupA, hq, ih h]
        · simp [List.filter_cons, hp, ih h]

/-- After `clearAll` no key can be loaded. -/
theorem loadKey_clearAll (e : Env) (cfg : Cfg) (s : St) :
    loadKey e cfg (clearAll e cfg s).2 = none := by
  unfold clearAll loadKey
  by_cases hls : (features e).localStorage
  · by_cases hdb : (features e).indexedDB <;>
      simp [hls, hdb, lookupA_filter_none _ _ _ (lookupA_removeA_self s.ls cfg.keyName)]
  · by_cases hdb : (features e).indexedDB
    · by_cases hif : e.idbFail <;> simp [hls, hdb, hif, lookupA]
    · simp [hls, hdb]

theorem KeyWF_of_none (e : Env) (cfg : Cfg) (s : St)
    (h : loadKey e cfg s = none) : KeyWF e cfg s := by
  intro k hk
  rw [h] at hk
  exact absurd hk (by simp)

/-- A storage tier. -/
inductive Tier where
  | ls
  | idb
  | mem
deriving DecidableEq

/-- Read the record stored under a key in a given tier. -/
def recordGet : Tier → St → JsStr → Option JsStr
  | .ls, s, k => lookupA s.ls k
  | .idb, s, k => lookupA s.idb k
  | .mem, s, k => lookupA (s.memStore.getD []) k

/-- Modelled from the amended claim: the record backend used is the
configured one when the capability probe confirmed it available,
otherwise the in-memory map directly. -/
def amendedTier (f : Features) (backend : JsStr) : Tier :=
  if f.localStorage ∧ backend = js "localStorage" then .ls
  else if f.indexedDB ∧ backend = js "indexedDB" then .idb
  else .mem

/-- The storage tier selection exactly as the original claim words it:
the configured backend if the capability probe confirmed it available,
and otherwise the next available tier in the priority order synchronous
key-value store, asynchronous indexed store, in-memory map. -/
def cascadeTier (f : Features) (backend : JsStr) : Tier :=
  let avail : Tier → Bool := fun t =>
    match t with
    | .ls => f.localStorage
    | .idb => f.indexedDB
    | .mem => true
  let order : List Tier :=
    if backend = js "localStorage" then [.ls, .idb, .mem]
    else if backend = js "indexedDB" then [.idb, .mem]
    else [.mem]
  (order.find? avail).getD .mem

/-- The record read chain reads exactly the amended tier. -/
theorem getRecordE_amended (e : Env) (cfg : Cfg) (k : JsStr) (s : St)
    (hidb : e.idbFail = false) :
    getRecordE e cfg k s
      = .ok (recordGet (amendedTier (features e) cfg.storageBackend) s k) := by
  unfold getRecordE amendedTier
  by_cases h1 : (features e).localStorage ∧ cfg.storageBackend = js "localStorage"
  · simp [h1, recordGet]
  · by_cases h2 : (features e).indexedDB ∧ cfg.storageBackend = js "indexedDB"
    · simp [h1, h2, hidb, recordGet,
        show ¬ (js "indexedDB" = js "localStorage") by decide]
    · simp [h1, h2, recordGet]

theorem truthy_of_ne_nil (env : JsStr) (h : env ≠ []) :
    truthy (some env) = true := by
  cases env with
  | nil => exact absurd rfl h
  | cons c t => rfl

theorem idb_ne_ls_str : ¬ (js "indexedDB" = js "localStorage") := by decide

/-- Decomposed final step of `loadEncrypted` when the record exists and
decryption succeeds. -/
theorem load_of_record (e : Env) (cfg : Cfg) (rk : JsStr) (pw2 : Option JsStr)
    (s2 : St) (env : JsStr) (data : Json)
    (hidb : e.idbFail = false)
    (hrg : recordGet (amendedTier (features e) cfg.storageBackend) s2 rk
        = some env)
    (henvne : env ≠ [])
    (hdec : decrypt e cfg env pw2 s2 = (.ok data, s2)) :
    loadEncrypted e cfg rk pw2 s2 = (some data, s2) := by
  unfold loadEncrypted loadEncryptedBody
  rw [getRecordE_amended e cfg rk s2 hidb, hrg]
  simp only [truthy_of_ne_nil env henvne, if_true, Option.getD_some, hdec]

/-- Full save/load specification on a write-capable environment: the
save succeeds, the envelope lands in the amended tier, other tiers'
records are untouched, and a later load (with any password argument)
returns the stored data. -/
theorem saveEncrypted_spec (e : Env) (cfg : Cfg) (rk : JsStr) (data : Json)
    (pw : Option JsStr) (s : St) (hq : e.lsQuota = false)
    (hidb : e.idbFail = false) (hkwf : KeyWF e cfg s) (hd : dataOk e data)
    (hrk : rk ≠ cfg.keyName) :
    ∃ env s2, saveEncrypted e cfg rk data pw s = (true, s2)
      ∧ recordGet (amendedTier (features e) cfg.storageBackend) s2 rk
          = some env
      ∧ (∀ t, t ≠ amendedTier (features e) cfg.storageBackend →
          recordGet t s2 rk = recordGet t s rk)
      ∧ (dataStr data ≠ [] → env ≠ [])
      ∧ (env ≠ [] → ∀ pw2,
          loadEncrypted e cfg rk pw2 s2 = (some data, s2)) := by
  obtain ⟨env, s', k, henc, hldk, hkb, hdec, hpres, hms, hne⟩ :=
    encrypt_spec e cfg data pw s hq hidb hkwf hd
  obtain ⟨hpls, hpidb⟩ := hpres rk hrk
  unfold saveEncrypted saveEncryptedBody
  rw [henc]
  by_cases h1 : (features e).localStorage ∧ cfg.storageBackend = js "localStorage"
  · have hrg : recordGet (amendedTier (features e) cfg.storageBackend)
        { s' with ls := insertA s'.ls rk env } rk = some env := by
      simp [amendedTier, h1, recordGet, lookupA_insertA_self]
    have hload : loadKey e cfg { s' with ls := insertA s'.ls rk env }
        = some k := by
      refine (loadKey_congr e cfg s' _ ?_ ?_ ?_).trans hldk
      · exact lookupA_insertA_ne s'.ls rk cfg.keyName env
          (fun hh => hrk hh.symm)
      · rfl
      · rfl
    refine ⟨env, { s' with ls := insertA s'.ls rk env },
      by simp [h1, hq], hrg, ?_,
      hne, fun henvne pw2 => load_of_record e cfg rk pw2 _ env data hidb hrg
        henvne (hdec pw2 _ hload)⟩
    intro t ht
    simp only [amendedTier, h1, if_true] at ht
    match t, ht with
    | .idb, _ => simpa [recordGet] using hpidb
    | .mem, _ => simp [recordGet, hms]
  · by_cases h2 : (features e).indexedDB ∧ cfg.storageBackend = js "indexedDB"
    · have hrg : recordGet (amendedTier (features e) cfg.storageBackend)
          { s' with idb := insertA s'.idb rk env } rk = some env := by
        simp [amendedTier, h1, h2, recordGet, lookupA_insertA_self,
          idb_ne_ls_str]
      have hload : loadKey e cfg { s' with idb := insertA s'.idb rk env }
          = some k := by
        refine (loadKey_congr e cfg s' _ ?_ ?_ ?_).trans hldk
        · rfl
        · exact lookupA_insertA_ne s'.idb rk cfg.keyName env
            (fun hh => hrk hh.symm)
        · rfl
      refine ⟨env, { s' with idb := insertA s'.idb rk env },
        by simp [h1, h2, hidb, idb_ne_ls_str], hrg, ?_,
        hne, fun henvne pw2 => load_of_record e cfg rk pw2 _ env data hidb hrg
          henvne (hdec pw2 _ hload)⟩
      intro t ht
      simp only [amendedTier, h1, h2, idb_ne_ls_str, if_false, if_true,
        and_false, false_and] at ht
      match t, ht with
      | .ls, _ => simpa [recordGet] using hpls
      | .mem, _ => simp [recordGet, hms]
    · have hrg : recordGet (amendedTier (features e) cfg.storageBackend)
          { s' with memStore := some (insertA (s'.memStore.getD []) rk env) }
          rk = some env := by
        simp [amendedTier, h1, h2, recordGet, lookupA_insertA_self]
      have hload : loadKey e cfg { s' with
          memStore := some (insertA (s'.memStore.getD []) rk env) }
          = some k := by
        refine (loadKey_congr e cfg s' _ ?_ ?_ ?_).trans hldk
        · rfl
        · rfl
        · rfl
      refine ⟨env, { s' with
          memStore := some (insertA (s'.memStore.getD []) rk env) },
        by simp [h1, h2], hrg, ?_,
        hne, fun henvne pw2 => load_of_record e cfg rk pw2 _ env data hidb hrg
          henvne (hdec pw2 _ hload)⟩
      intro t ht
      simp only [amendedTier, h1, h2, if_false] at ht
      match t, ht with
      | .ls, _ => simpa [recordGet] using hpls
      | .idb, _ => simpa [recordGet] using hpidb

/-- `decrypt` throws its no-key error when no key is stored and no
truthy password was given. -/
theorem decrypt_noKey (e : Env) (cfg : Cfg) (env : JsStr) (pw : Option JsStr)
    (s2 : St) (h : loadKey e cfg s2 = none) (hpw : truthy pw = false) :
    decrypt e cfg env pw s2 = (.error .noKey, s2) := by
  unfold decrypt
  rw [h, hpw]

/-- After `clearAll`, loading any record key without a password yields
`null`: either the record is gone, or (records surviving in
`localStorage`) the key slot is gone so decryption throws no-key, which
`loadEncrypted` downgrades to `null`. -/
theorem loadEncrypted_after_clearAll (e : Env) (cfg : Cfg) (s : St)
    (k : JsStr) :
    (loadEncrypted e cfg k none (clearAll e cfg s).2).1 = none := by
  have hlk := loadKey_clearAll e cfg s
  unfold loadEncrypted loadEncryptedBody
  by_cases h1 : (features e).localStorage ∧ cfg.storageBackend = js "localStorage"
  · simp only [getRecordE, h1, if_true, and_self]
    rcases hrec : lookupA (clearAll e cfg s).2.ls k with _ | env
    · simp [truthy]
    · cases env with
      | nil => simp [truthy]
      | cons c tl =>
          simp only [truthy, if_true, Option.getD_some,
            decrypt_noKey e cfg (c :: tl) none _ hlk rfl]
  · by_cases h2 : (features e).indexedDB ∧ cfg.storageBackend = js "indexedDB"
    · by_cases hif : e.idbFail
      · simp [getRecordE, h1, h2, hif, idb_ne_ls_str]
      · have hidb' : (features e).indexedDB := h2.1
        have : (clearAll e cfg s).2.idb = [] := by
          simp only [clearAll]
          simp [features] at hidb'
          simp [features, hidb']
        simp [getRecordE, h1, h2, hif, this, lookupA, idb_ne_ls_str, truthy]
    · have : (clearAll e cfg s).2.memStore = none := by simp [clearAll]
      simp [getRecordE, h1, h2, this, lookupA, truthy]

/-- A no-password `encrypt` call uses the stored key. -/
theorem encrypt_uses_stored_key (e : Env) (cfg : Cfg) (d : Json)
    (k : List Nat) (pw2 : Option JsStr) (s2 : St)
    (hk : loadKey e cfg s2 = some k) (hpw : truthy pw2 = false) :
    encrypt e cfg d pw2 s2 = encryptWithKey e d k s2 := by
  simp [encrypt, hk, hpw]

/-! Concrete fixtures for scenario evaluation. -/

/-- A modern-browser environment (Web Crypto available) on a fixed
origin. -/
def envWC : Env :=
  { webCrypto := true, localStorage := true, indexedDB := true,
    textEncoder := true, hostname := js "example.com" }

/-- A legacy environment without Web Crypto (fallback cipher mode). -/
def envSimple : Env :=
  { webCrypto := false, localStorage := true, indexedDB := true,
    textEncoder := false, hostname := js "example.com" }

/-- Default construction options. -/
def cfg0 : Cfg := {}

/-- A fresh world state. -/
def st0 : St := {}

theorem strOk_envWC (str : JsStr) (h : ∀ u ∈ str, u < 65536) :
    StrOk envWC str := h

/-! The claims. -/

/-- C1 (amended): `decrypt (encrypt v) = v` holds, in both cipher modes
and from any write-capable state whose key slot is well formed, for
every string that `JSON.parse` rejects and every JSON-serializable
structure (one whose stringify/parse round trip is the identity), with
the character bounds the active cipher needs (valid UTF-16 on the Web
Crypto path; character codes below 256 on the fallback path, whose
`charCodeAt & 0xFF` masking is lossy above that). -/
theorem c1_round_trip (e : Env) (cfg : Cfg) (data : Json)
    (pw : Option JsStr) (s : St) (hq : e.lsQuota = false)
    (hidb : e.idbFail = false) (hkwf : KeyWF e cfg s) (hd : dataOk e data) :
    ∃ env s', encrypt e cfg data pw s = (.ok env, s')
      ∧ (decrypt e cfg env pw s').1 = .ok data := by
  obtain ⟨env, s', k, henc, hldk, _, hdec, _, _, _⟩ :=
    encrypt_spec e cfg data pw s hq hidb hkwf hd
  exact ⟨env, s', henc, by rw [hdec pw s' hldk]⟩

/-- C1 witness: a JSON object round-trips on a fresh Web Crypto store. -/
theorem c1_round_trip_witness :
    ∃ env s', encrypt envWC cfg0 (.obj [(js "a", .num 1)]) none st0
        = (.ok env, s')
      ∧ (decrypt envWC cfg0 env none s').1 = .ok (.obj [(js "a", .num 1)]) :=
  c1_round_trip envWC cfg0 (.obj [(js "a", .num 1)]) none st0 rfl rfl
    (KeyWF_of_none envWC cfg0 st0 rfl) ⟨rfl, strOk_envWC _ (by decide)⟩

set_option maxRecDepth 200000 in
/-- C1 counterexample: the claim fails as stated. The string "123" comes
back as the number 123 (decrypt JSON-parses the plaintext), and in the
fallback mode the one-character string U+20AC comes back as the
character 0xAC (the `& 0xFF` masking), so `decrypt (encrypt v) = v` does
not hold for all strings. -/
theorem c1_counterexample :
    ((decrypt envWC cfg0
        ((encrypt envWC cfg0 (.str (js "123")) none st0).1.toOption.getD [])
        none (encrypt envWC cfg0 (.str (js "123")) none st0).2).1
      = .ok (Json.num 123))
    ∧ Json.num 123 ≠ Json.str (js "123")
    ∧ ((decrypt envSimple cfg0
        ((encrypt envSimple cfg0 (.str [8364]) none st0).1.toOption.getD [])
        none (encrypt envSimple cfg0 (.str [8364]) none st0).2).1
      = .ok (.str [172]))
    ∧ Json.str [172] ≠ Json.str [8364] := by
  refine ⟨rfl, ?_, rfl, ?_⟩
  · intro h
    exact Json.noConfusion h
  · intro h
    injection h with h'
    exact absurd h' (by decide)

/-- C2: after `clearAll`, loading any previously saved record key (with
no password) returns `null`, and a subsequent save/load cycle on any
record key still succeeds because a fresh key is regenerated on the next
save. -/
theorem c2_clear_all (e : Env) (cfg : Cfg) (s : St) (k : JsStr)
    (data : Json) (hq : e.lsQuota = false) (hidb : e.idbFail = false)
    (hd : dataOk e data) (hk : k ≠ cfg.keyName) (hds : dataStr data ≠ []) :
    ((loadEncrypted e cfg k none (clearAll e cfg s).2).1 = none)
    ∧ ∃ s2, saveEncrypted e cfg k data none (clearAll e cfg s).2 = (true, s2)
        ∧ loadEncrypted e cfg k none s2 = (some data, s2) := by
  refine ⟨loadEncrypted_after_clearAll e cfg s k, ?_⟩
  obtain ⟨env, s2, hsave, _, _, hne, hload⟩ := saveEncrypted_spec e cfg k data
    none (clearAll e cfg s).2 hq hidb
    (KeyWF_of_none _ _ _ (loadKey_clearAll e cfg s)) hd hk
  exact ⟨s2, hsave, hload (hne hds) none⟩

/-- C2 witness: a concrete clear-then-save-then-load cycle. -/
theorem c2_clear_all_witness :
    ((loadEncrypted envWC cfg0 (js "note3") none
        (clearAll envWC cfg0 st0).2).1 = none)
    ∧ ∃ s2, saveEncrypted envWC cfg0 (js "note3") (.str (js "hi")) none
          (clearAll envWC cfg0 st0).2 = (true, s2)
        ∧ loadEncrypted envWC cfg0 (js "note3") none s2
            = (some (.str (js "hi")), s2) :=
  c2_clear_all envWC cfg0 st0 (js "note3") (.str (js "hi")) rfl rfl
    ⟨rfl, strOk_envWC _ (by decide)⟩ (by decide) (by decide)

set_option maxRecDepth 400000 in
/-- C3: evaluation at the claimed scenario. After
`saveEncrypted "note2" "plain text" "secret"`, loading with the wrong
password returns "plain text" — not `null` as the claim (and the
README's password-protection documentation) state — because `decrypt`
uses the stored key whenever one exists and never consults the password;
loading with the correct password returns the same value for the same
reason. Shown in both cipher modes. -/
theorem c3_wrong_password_returns_plaintext :
    ((saveEncrypted envWC cfg0 (js "note2") (.str (js "plain text"))
        (some (js "secret")) st0).1 = true)
    ∧ ((loadEncrypted envWC cfg0 (js "note2") (some (js "wrong"))
        (saveEncrypted envWC cfg0 (js "note2") (.str (js "plain text"))
          (some (js "secret")) st0).2).1 = some (.str (js "plain text")))
    ∧ ((loadEncrypted envWC cfg0 (js "note2") (some (js "secret"))
        (saveEncrypted envWC cfg0 (js "note2") (.str (js "plain text"))
          (some (js "secret")) st0).2).1 = some (.str (js "plain text")))
    ∧ ((loadEncrypted envSimple cfg0 (js "note2") (some (js "wrong"))
        (saveEncrypted envSimple cfg0 (js "note2") (.str (js "plain text"))
          (some (js "secret")) st0).2).1 = some (.str (js "plain text")))
    ∧ some (Json.str (js "plain text")) ≠ none := by
  refine ⟨rfl, rfl, rfl, rfl, ?_⟩
  intro h
  exact Option.noConfusion h

/-- C4: supplying a (truthy) password makes `encrypt` derive a fresh key
from that password and overwrite the key slot with it regardless of any
previously stored key — the PBKDF2-derived key on the Web Crypto path,
fresh random bytes masked with the password on the fallback path — and
every later no-password `encrypt` performed while that key is the stored
one encrypts with exactly that key. -/
theorem c4_password_overwrites_key (e : Env) (cfg : Cfg) (data : Json)
    (p : JsStr) (s : St) (hp : p ≠ []) (hq : e.lsQuota = false)
    (hidb : e.idbFail = false) (hd : dataOk e data) :
    ∃ env s', encrypt e cfg data (some p) s = (.ok env, s')
      ∧ loadKey e cfg s' = some (gKey e cfg (some p) s)
      ∧ gKey e cfg (some p) s
          = (if encryptionMethod e = js "webcrypto"
             then deriveKeyFromPassword e cfg p
             else xorKeyWithPassword (randomBytes 32 s.seed).1 p)
      ∧ (∀ d2 pw2 s2, loadKey e cfg s2 = some (gKey e cfg (some p) s) →
          truthy pw2 = false →
          encrypt e cfg d2 pw2 s2
            = encryptWithKey e d2 (gKey e cfg (some p) s) s2) := by
  have htp : truthy (some p) = true := truthy_of_ne_nil p hp
  obtain ⟨s1, hgen, hld1, hpres1, hms1⟩ :=
    generateAndStoreKey_spec e cfg (some p) s hq hidb
  obtain ⟨env, s', henc, hls, hidb2, hmk, hms2, hdec, hne⟩ :=
    encryptWithKey_spec e cfg data (gKey e cfg (some p) s) s1
      (gKey_lt_256 e cfg (some p) s) hd
  refine ⟨env, s', ?_, ?_, ?_, ?_⟩
  · rcases hk0 : loadKey e cfg s with _ | kk <;>
      simp only [encrypt, hk0, htp, hgen] <;> exact henc
  · rw [loadKey_congr e cfg s1 s' (by rw [hls]) (by rw [hidb2]) hmk]
    exact hld1
  · simp [gKey, htp]
  · intro d2 pw2 s2 hk2 hpw2
    exact encrypt_uses_stored_key e cfg d2 _ pw2 s2 hk2 hpw2

/-- C4 witness: a password-guarded encrypt on a fresh Web Crypto store. -/
theorem c4_password_overwrites_key_witness :
    ∃ env s', encrypt envWC cfg0 (.str (js "x")) (some (js "secret")) st0
        = (.ok env, s')
      ∧ loadKey envWC cfg0 s' = some (gKey envWC cfg0 (some (js "secret")) st0)
      ∧ gKey envWC cfg0 (some (js "secret")) st0
          = (if encryptionMethod envWC = js "webcrypto"
             then deriveKeyFromPassword envWC cfg0 (js "secret")
             else xorKeyWithPassword (randomBytes 32 st0.seed).1 (js "secret"))
      ∧ (∀ d2 pw2 s2,
          loadKey envWC cfg0 s2
              = some (gKey envWC cfg0 (some (js "secret")) st0) →
          truthy pw2 = false →
          encrypt envWC cfg0 d2 pw2 s2
            = encryptWithKey envWC d2
                (gKey envWC cfg0 (some (js "secret")) st0) s2) :=
  c4_password_overwrites_key envWC cfg0 (.str (js "x")) (js "secret") st0
    (by decide) rfl rfl ⟨rfl, strOk_envWC _ (by decide)⟩

/-- C5: `deriveKeyFromPassword` is deterministic per origin: its output
depends only on the password, the hostname, the Web Crypto availability
that fixes the active path and the configured key size — not on any
mutable state, random source or other environment flag — so two
invocations in different sessions on the same origin agree byte for
byte, on both the PBKDF2 path and the fallback positional-mask path. -/
theorem c5_derive_deterministic (e1 e2 : Env) (cfg : Cfg) (p : JsStr)
    (hh : e1.hostname = e2.hostname) (hw : e1.webCrypto = e2.webCrypto) :
    deriveKeyFromPassword e1 cfg p = deriveKeyFromPassword e2 cfg p := by
  unfold deriveKeyFromPassword
  rw [show (features e1).webCrypto = (features e2).webCrypto from hw, hh]

/-- C5 witness: two sessions (different quota state, different storage
capabilities) on the same origin derive the same key. -/
theorem c5_derive_deterministic_witness :
    deriveKeyFromPassword envWC cfg0 (js "p")
      = deriveKeyFromPassword
          { envWC with lsQuota := true, indexedDB := false } cfg0 (js "p") :=
  c5_derive_deterministic envWC
    { envWC with lsQuota := true, indexedDB := false } cfg0 (js "p") rfl rfl

/-- C6: `saveEncrypted` never raises: every outcome of its underlying
body is turned into a boolean return — `true` exactly when the body
succeeded, `false` for every thrown error (encryption failure or storage
backend failure), so `false` is the only failure signal. -/
theorem c6_save_never_raises (e : Env) (cfg : Cfg) (k : JsStr) (data : Json)
    (pw : Option JsStr) (s : St) :
    (∃ s1, saveEncryptedBody e cfg k data pw s = (.ok (), s1)
        ∧ saveEncrypted e cfg k data pw s = (true, s1))
    ∨ (∃ er s1, saveEncryptedBody e cfg k data pw s = (.error er, s1)
        ∧ saveEncrypted e cfg k data pw s = (false, s1)) := by
  rcases h : saveEncryptedBody e cfg k data pw s with ⟨r, s1⟩
  cases r with
  | ok u =>
      cases u
      exact Or.inl ⟨s1, rfl, by unfold saveEncrypted; rw [h]⟩
  | error er => exact Or.inr ⟨er, s1, rfl, by unfold saveEncrypted; rw [h]⟩

/-- C7: `loadEncrypted` never raises: every body outcome becomes a value
or `null`; it returns `null` when the record read chain finds nothing
(including on a fresh store) and when decryption of the retrieved
envelope throws, and the decrypted data when decryption succeeds. -/
theorem c7_load_never_raises (e : Env) (cfg : Cfg) (k : JsStr)
    (pw : Option JsStr) (s : St) :
    ((∃ v s1, loadEncryptedBody e cfg k pw s = (.ok v, s1)
        ∧ loadEncrypted e cfg k pw s = (v, s1))
      ∨ (∃ er s1, loadEncryptedBody e cfg k pw s = (.error er, s1)
        ∧ loadEncrypted e cfg k pw s = (none, s1)))
    ∧ (getRecordE e cfg k s = .ok none →
        loadEncrypted e cfg k pw s = (none, s))
    ∧ (∀ env er s1, getRecordE e cfg k s = .ok (some env) →
        truthy (some env) = true →
        decrypt e cfg env pw s = (.error er, s1) →
        loadEncrypted e cfg k pw s = (none, s1))
    ∧ (∀ env d s1, getRecordE e cfg k s = .ok (some env) →
        truthy (some env) = true →
        decrypt e cfg env pw s = (.ok d, s1) →
        loadEncrypted e cfg k pw s = (some d, s1)) := by
  refine ⟨?_, ?_, ?_, ?_⟩
  · rcases h : loadEncryptedBody e cfg k pw s with ⟨r, s1⟩
    cases r with
    | ok v => exact Or.inl ⟨v, s1, rfl, by unfold loadEncrypted; rw [h]⟩
    | error er => exact Or.inr ⟨er, s1, rfl, by unfold loadEncrypted; rw [h]⟩
  · intro hrec
    unfold loadEncrypted loadEncryptedBody
    rw [hrec]
    simp [truthy]
  · intro env er s1 hrec htr hdec
    unfold loadEncrypted loadEncryptedBody
    rw [hrec]
    simp only [htr, if_true, Option.getD_some, hdec]
  · intro env d s1 hrec htr hdec
    unfold loadEncrypted loadEncryptedBody
    rw [hrec]
    simp only [htr, if_true, Option.getD_some, hdec]

/-- C7 witness: a load on a fresh store returns `null` without raising. -/
theorem c7_load_never_raises_witness :
    loadEncrypted envWC cfg0 (js "nokey") none st0 = (none, st0) :=
  (c7_load_never_raises envWC cfg0 (js "nokey") none st0).2.1 rfl

/-- An environment whose `localStorage` probe failed while IndexedDB is
available, with the default configured backend `localStorage`. -/
def env8 : Env :=
  { webCrypto := true, localStorage := false, indexedDB := true,
    textEncoder := true, hostname := js "example.com" }

set_option maxRecDepth 200000 in
/-- C8 counterexample: with `localStorage` unavailable, IndexedDB
available and the configured backend `localStorage`, the cascade the
claim describes would use the indexed store next, but the code stores
the record straight into the in-memory map: after a successful save the
indexed store holds no record under the key while the memory map does. -/
theorem c8_cascade_counterexample :
    cascadeTier (features env8) cfg0.storageBackend = .idb
    ∧ ((saveEncrypted env8 cfg0 (js "k") (.str (js "v")) none st0).1 = true)
    ∧ (recordGet .idb
        (saveEncrypted env8 cfg0 (js "k") (.str (js "v")) none st0).2
        (js "k") = none)
    ∧ ((recordGet .mem
        (saveEncrypted env8 cfg0 (js "k") (.str (js "v")) none st0).2
        (js "k")).isSome = true)
    ∧ Tier.idb ≠ Tier.mem := by
  refine ⟨rfl, rfl, rfl, rfl, ?_⟩
  intro h
  exact Tier.noConfusion h

/-- C8 (amended): for every save and load, the record backend used is
the one the caller configured when the capability probe confirmed it
available, and otherwise the in-memory map directly (no cascade through
intermediate tiers): a successful save places the envelope in that tier
and leaves the other tiers' records for the key unchanged, and the load
chain reads exactly that tier. -/
theorem c8_backend_selection (e : Env) (cfg : Cfg) (rk : JsStr)
    (data : Json) (pw : Option JsStr) (s : St) (hq : e.lsQuota = false)
    (hidb : e.idbFail = false) (hkwf : KeyWF e cfg s) (hd : dataOk e data)
    (hrk : rk ≠ cfg.keyName) :
    ∃ env s2, saveEncrypted e cfg rk data pw s = (true, s2)
      ∧ recordGet (amendedTier (features e) cfg.storageBackend) s2 rk
          = some env
      ∧ (∀ t, t ≠ amendedTier (features e) cfg.storageBackend →
          recordGet t s2 rk = recordGet t s rk)
      ∧ (∀ k' s3, getRecordE e cfg k' s3
          = .ok (recordGet (amendedTier (features e) cfg.storageBackend)
              s3 k')) := by
  obtain ⟨env, s2, hsave, hrg, hpres, _, _⟩ :=
    saveEncrypted_spec e cfg rk data pw s hq hidb hkwf hd hrk
  exact ⟨env, s2, hsave, hrg, hpres,
    fun k' s3 => getRecordE_amended e cfg k' s3 hidb⟩

/-- C8 witness: a concrete save lands in the configured available
backend. -/
theorem c8_backend_selection_witness :
    ∃ env s2, saveEncrypted envWC cfg0 (js "rec") (.str (js "v")) none st0
        = (true, s2)
      ∧ recordGet (amendedTier (features envWC) cfg0.storageBackend) s2
          (js "rec") = some env
      ∧ (∀ t, t ≠ amendedTier (features envWC) cfg0.storageBackend →
          recordGet t s2 (js "rec") = recordGet t st0 (js "rec"))
      ∧ (∀ k' s3, getRecordE envWC cfg0 k' s3
          = .ok (recordGet (amendedTier (features envWC) cfg0.storageBackend)
              s3 k')) :=
  c8_backend_selection envWC cfg0 (js "rec") (.str (js "v")) none st0 rfl rfl
    (KeyWF_of_none envWC cfg0 st0 rfl) ⟨rfl, strOk_envWC _ (by decide)⟩
    (by decide)

/-- C9: authenticated-mode tamper detection: for every envelope produced
by the Web Crypto encryption path under a key, changing any single byte
of the envelope's decoded bytes makes decryption with that same key fail
with the authentication-failure condition — it never returns a value. -/
theorem c9_tamper_detection (e : Env) (data : JsStr) (key : List Nat)
    (s : St) (hwc : e.webCrypto = true) :
    ∃ env s', encryptWithWebCrypto e data key s = (.ok env, s')
      ∧ ∃ combined, base64ToArrayBuffer env = some combined
        ∧ ∀ i, i < combined.length → ∀ b', b' < 256 →
            b' ≠ combined.getD i 0 →
            decryptWithWebCrypto e (arrayBufferToBase64 (combined.set i b'))
              key = .error .authFailure := by
  have hivlen := randomBytes_length ivSize s.seed
  have hivlt := randomBytes_lt_256 ivSize s.seed
  have hptlt := textEncode_lt_256 data
  refine ⟨arrayBufferToBase64 ((randomBytes ivSize s.seed).1
      ++ subtleEncrypt key (randomBytes ivSize s.seed).1 (textEncode data)),
    { s with seed := (randomBytes ivSize s.seed).2 }, ?_, ?_⟩
  · simp only [encryptWithWebCrypto, features, hwc, if_true]
  · refine ⟨_, arrayBufferToBase64_roundtrip _ ?_, ?_⟩
    · intro b hb
      rcases List.mem_append.mp hb with h | h
      · exact hivlt b h
      · exact subtleEncrypt_lt_256 key _ _ hptlt b h
    · intro i hi b' hb' hne
      exact tamper_core e key (randomBytes ivSize s.seed).1 (textEncode data)
        hivlen hivlt hptlt i b' hi hb' hne hwc

/-- C9 witness: a concrete envelope rejects every single-byte change. -/
theorem c9_tamper_detection_witness :
    ∃ env s', encryptWithWebCrypto envWC (js "hello") [1, 2, 3] st0
        = (.ok env, s')
      ∧ ∃ combined, base64ToArrayBuffer env = some combined
        ∧ ∀ i, i < combined.length → ∀ b', b' < 256 →
            b' ≠ combined.getD i 0 →
            decryptWithWebCrypto envWC
              (arrayBufferToBase64 (combined.set i b')) [1, 2, 3]
              = .error .authFailure :=
  c9_tamper_detection envWC (js "hello") [1, 2, 3] st0 rfl

/-- C10 (implicit): whenever a key is persisted in the key slot,
`decrypt` ignores the password argument entirely: for every envelope and
any two password arguments, the results and final states coincide,
because the stored key is used and password-based derivation only runs
when no stored key exists. -/
theorem c10_decrypt_ignores_password (e : Env) (cfg : Cfg) (env : JsStr)
    (s : St) (k : List Nat) (p1 p2 : Option JsStr)
    (hk : loadKey e cfg s = some k) :
    decrypt e cfg env p1 s = decrypt e cfg env p2 s := by
  unfold decrypt
  rw [hk]

/-- A state whose key slot holds the serialized key bytes 1, 2, 3. -/
def keySlotVal : JsStr := jsonStringify (natsToJson [1, 2, 3])

def stWithKey : St :=
  { st0 with ls := insertA st0.ls (js "pwa-encryption-key") keySlotVal }

/-- C10 witness: with a stored key, two different passwords give the
same decryption outcome. -/
theorem c10_decrypt_ignores_password_witness :
    decrypt envWC cfg0 (js "abc") (some (js "a")) stWithKey
      = decrypt envWC cfg0 (js "abc") (some (js "b")) stWithKey :=
  c10_decrypt_ignores_password envWC cfg0 (js "abc") stWithKey [1, 2, 3]
    (some (js "a")) (some (js "b")) rfl

end EncStore
